import Mathlib

/-!
# Verification of the lix monorepo's JSON storage boundary and change-graph core

This development embeds, in Lean, the JSON (de)serialization layer of the
repository (the Kysely `JsonPlugin` with `maybeSerializeJson` /
`parseJsonString`, and the `SerializeJsonBPlugin` with `isJsonbColumn` /
`transformValues` / `serializeValue`), together with a model of the SDK's
change-set / version / proposal engine, whose implementation is only
visible through its tests, api docs and the specification.

Modelling conventions:
* JavaScript runtime values are the inductive `JsValue`.  Numbers are
  modelled as integers (`Int`); IEEE-754 fraction/exponent forms are outside
  the model, so the embedded `jsonParse` rejects the fraction/exponent
  syntax that the real `JSON.parse` would accept (no claim depends on it).
* JavaScript strings are Lean `String`s (sequences of Unicode scalar
  values); the UTF-16 lone-surrogate corner of `JSON.parse` is mapped to
  the replacement character.
* SQLite's `jsonb()`/`json()` pair is modelled value-wise: a JSONB blob is
  the code sequence of the canonical minified rendering of the parsed value.
-/

/-- A JavaScript runtime value as it crosses the storage boundary.
`undef` is `undefined`; `arrayBuffer`/`bufferView` model `ArrayBuffer`
and typed-array views (`ArrayBuffer.isView`), carrying their bytes. -/
inductive JsValue where
  | undef : JsValue
  | jnull : JsValue
  | bool (b : Bool) : JsValue
  | num (n : Int) : JsValue
  | str (s : String) : JsValue
  | arr (elems : List JsValue) : JsValue
  | obj (fields : List (String × JsValue)) : JsValue
  | arrayBuffer (bytes : List Nat) : JsValue
  | bufferView (bytes : List Nat) : JsValue
deriving Repr

/-- Decimal digit characters of a natural number, accumulator form.  The
fuel argument only makes the recursion structural; it is always sufficient
at the call site below. -/
def natToCharsAux : Nat → Nat → List Char → List Char
  | 0, _, acc => acc
  | fuel + 1, n, acc =>
    if n < 10 then Nat.digitChar n :: acc
    else natToCharsAux fuel (n / 10) (Nat.digitChar (n % 10) :: acc)

/-- Decimal digit characters of a natural number, as `String(n)` renders it. -/
def natToChars (n : Nat) : List Char := natToCharsAux (n + 1) n []

/-- Decimal rendering of an integer, as JavaScript `String(n)` /
`JSON.stringify(n)` render an integral number. -/
def intToChars (n : Int) : List Char :=
  if n < 0 then '-' :: natToChars n.natAbs else natToChars n.toNat

/-- Lowercase hex digit for a value below 16 (as in `\u00XX` escapes). -/
def lowerHexChar (n : Nat) : Char :=
  if n < 10 then Char.ofNat (48 + n) else Char.ofNat (87 + n)

/-- How `JSON.stringify` escapes one character inside a string literal. -/
def escapeChar (c : Char) : List Char :=
  if c = '"' then ['\\', '"']
  else if c = '\\' then ['\\', '\\']
  else if c = Char.ofNat 8 then ['\\', 'b']
  else if c = Char.ofNat 9 then ['\\', 't']
  else if c = Char.ofNat 10 then ['\\', 'n']
  else if c = Char.ofNat 12 then ['\\', 'f']
  else if c = Char.ofNat 13 then ['\\', 'r']
  else if c.toNat < 32 then
    ['\\', 'u', '0', '0', lowerHexChar (c.toNat / 16), lowerHexChar (c.toNat % 16)]
  else [c]

/-- Escape every character of a string body. -/
def escapeList : List Char → List Char
  | [] => []
  | c :: cs => escapeChar c ++ escapeList cs

/-- A JSON string literal: quote, escaped body, quote. -/
def quoteChars (s : List Char) : List Char :=
  '"' :: (escapeList s ++ ['"'])

/-- Index-keyed members of a typed-array view, as `JSON.stringify` sees them. -/
def stringifyViewFields : Nat → List Nat → List Char
  | _, [] => []
  | i, [b] => quoteChars (natToChars i) ++ ':' :: natToChars b
  | i, b :: bs =>
    quoteChars (natToChars i) ++ ':' :: natToChars b ++ ',' :: stringifyViewFields (i + 1) bs

/-- Is this value kept by `JSON.stringify` as an object member? (`undefined`
members are dropped.) -/
def keptField (v : JsValue) : Bool :=
  match v with
  | .undef => false
  | _ => true

/-- Does the member list still contribute any rendered member? -/
def hasKeptField (fs : List (String × JsValue)) : Bool :=
  fs.any fun kv => keptField kv.2

mutual

/-- Characters of `JSON.stringify(v)` (minified, as with no indent argument).
`undef` renders as `null` (its array-element behaviour); buffer values render
as their enumerable-property objects (`ArrayBuffer` has none; a typed array
exposes its indices), matching `JSON.stringify` on those objects. -/
def stringifyVal : JsValue → List Char
  | .undef => ['n', 'u', 'l', 'l']
  | .jnull => ['n', 'u', 'l', 'l']
  | .bool false => ['f', 'a', 'l', 's', 'e']
  | .bool true => ['t', 'r', 'u', 'e']
  | .num n => intToChars n
  | .str s => quoteChars s.data
  | .arr es => '[' :: (stringifyElems es ++ [']'])
  | .obj fs => '{' :: (stringifyFields fs ++ ['}'])
  | .arrayBuffer _ => ['{', '}']
  | .bufferView bs => '{' :: (stringifyViewFields 0 bs ++ ['}'])

/-- Comma-separated array elements. -/
def stringifyElems : List JsValue → List Char
  | [] => []
  | [e] => stringifyVal e
  | e :: es => stringifyVal e ++ ',' :: stringifyElems es

/-- Comma-separated `"key":value` object members; `undefined`-valued members
are dropped (as `JSON.stringify` drops them). -/
def stringifyFields : List (String × JsValue) → List Char
  | [] => []
  | (k, v) :: fs =>
    if keptField v then
      if hasKeptField fs then
        quoteChars k.data ++ ':' :: stringifyVal v ++ ',' :: stringifyFields fs
      else
        quoteChars k.data ++ ':' :: stringifyVal v
    else stringifyFields fs

end

/-- `JSON.stringify(v)` as a string, for values it does not drop. -/
def jsonStringify (v : JsValue) : String := ⟨stringifyVal v⟩

/-! ## The model of `JSON.parse`

A recursive-descent parser over the character list, with an explicit fuel
bound on nesting.  The grammar is RFC 8259 JSON, except that numbers are
restricted to the integral fragment (see the module comment). -/

/-- JSON insignificant whitespace (also the characters `String.trim` and the
JavaScript `trim()` remove from the strings that matter here). -/
def isWsChar (c : Char) : Bool :=
  c = ' ' || c = Char.ofNat 9 || c = Char.ofNat 10 || c = Char.ofNat 13

/-- Skip insignificant whitespace. -/
def skipWs (cs : List Char) : List Char := cs.dropWhile isWsChar

/-- An ASCII decimal digit. -/
def isDigitChar (c : Char) : Bool := 48 ≤ c.toNat && c.toNat ≤ 57

/-- Value of one hex digit, if the character is one. -/
def hexVal (c : Char) : Option Nat :=
  if 48 ≤ c.toNat && c.toNat ≤ 57 then some (c.toNat - 48)
  else if 97 ≤ c.toNat && c.toNat ≤ 102 then some (c.toNat - 87)
  else if 65 ≤ c.toNat && c.toNat ≤ 70 then some (c.toNat - 55)
  else none

/-- The single-character string escapes of JSON. -/
def simpleEscape (e : Char) : Option Char :=
  if e = '"' then some '"'
  else if e = '\\' then some '\\'
  else if e = '/' then some '/'
  else if e = 'b' then some (Char.ofNat 8)
  else if e = 'f' then some (Char.ofNat 12)
  else if e = 'n' then some (Char.ofNat 10)
  else if e = 'r' then some (Char.ofNat 13)
  else if e = 't' then some (Char.ofNat 9)
  else none

/-- After a high-surrogate `\uXXXX` escape, try to read a following
`\uXXXX` escape: its numeric value and the input after it. -/
def decodePairTail (cs : List Char) : Option (Nat × List Char) :=
  match cs with
  | b1 :: b2 :: j1 :: j2 :: j3 :: j4 :: rest2 =>
    if b1 = '\\' && b2 = 'u' then
      match hexVal j1, hexVal j2, hexVal j3, hexVal j4 with
      | some a2, some b2', some g2, some d2 =>
        some (((a2 * 16 + b2') * 16 + g2) * 16 + d2, rest2)
      | _, _, _, _ => none
    else none
  | _ => none

/-- Parse the body of a string literal after its opening quote, returning the
decoded characters and the input following the closing quote.  `\uXXXX`
escapes outside the surrogate range decode to the scalar value; surrogate
pairs combine.  Lone surrogates are the UTF-16 boundary of the embedding
(JavaScript strings would keep them): a lone surrogate becomes U+FFFD, and
a high-surrogate escape followed by a `\u` escape that is not a low
surrogate is rejected.  The fuel argument only makes the recursion
structural; every call supplies at least the input length plus one, which
is always sufficient since each step consumes input. -/
def parseStringChars : Nat → List Char → Option (List Char × List Char)
  | 0, _ => none
  | _ + 1, [] => none
  | fuel + 1, c :: rest =>
    if c = '"' then some ([], rest)
    else if c = '\\' then
      match rest with
      | [] => none
      | e :: rest1 =>
        if e = 'u' then
          match rest1 with
          | h1 :: h2 :: h3 :: h4 :: rest2 =>
            match hexVal h1, hexVal h2, hexVal h3, hexVal h4 with
            | some a, some b, some g, some d =>
              let code := ((a * 16 + b) * 16 + g) * 16 + d
              if 55296 ≤ code && code ≤ 56319 then
                match decodePairTail rest2 with
                | some (lo, rest3) =>
                  if 56320 ≤ lo && lo ≤ 57343 then
                    (parseStringChars fuel rest3).map fun p =>
                      (Char.ofNat (65536 + (code - 55296) * 1024 + (lo - 56320)) :: p.1, p.2)
                  else none
                | none =>
                  (parseStringChars fuel rest2).map fun p => (Char.ofNat 65533 :: p.1, p.2)
              else if 56320 ≤ code && code ≤ 57343 then
                (parseStringChars fuel rest2).map fun p => (Char.ofNat 65533 :: p.1, p.2)
              else
                (parseStringChars fuel rest2).map fun p => (Char.ofNat code :: p.1, p.2)
            | _, _, _, _ => none
          | _ => none
        else
          match simpleEscape e with
          | some d => (parseStringChars fuel rest1).map fun p => (d :: p.1, p.2)
          | none => none
    else if c.toNat < 32 then none
    else (parseStringChars fuel rest).map fun p => (c :: p.1, p.2)

/-- Numeric value of a digit list (most significant first). -/
def digitsVal (ds : List Char) : Nat :=
  ds.foldl (fun a c => a * 10 + (c.toNat - 48)) 0

/-- Parse a maximal nonempty digit run as a natural number. -/
def parseNatNum (cs : List Char) : Option (Nat × List Char) :=
  let ds := cs.takeWhile isDigitChar
  if ds.isEmpty then none else some (digitsVal ds, cs.dropWhile isDigitChar)

/-- The input does not begin with a digit (so a preceding maximal digit run
ends exactly before it). -/
def digitFree (cs : List Char) : Bool :=
  match cs with
  | [] => true
  | c :: _ => !isDigitChar c

mutual

/-- Parse one JSON value (integral numbers only — a following `.` or
exponent is left unconsumed, so such inputs fail overall, see the module
comment), returning the value and the remaining input. -/
def parseVal : Nat → List Char → Option (JsValue × List Char)
  | 0, _ => none
  | fuel + 1, cs =>
    match skipWs cs with
    | [] => none
    | c :: rest =>
      if c = 'n' then
        match rest with
        | c1 :: c2 :: c3 :: r =>
          if c1 = 'u' && c2 = 'l' && c3 = 'l' then some (.jnull, r) else none
        | _ => none
      else if c = 't' then
        match rest with
        | c1 :: c2 :: c3 :: r =>
          if c1 = 'r' && c2 = 'u' && c3 = 'e' then some (.bool true, r) else none
        | _ => none
      else if c = 'f' then
        match rest with
        | c1 :: c2 :: c3 :: c4 :: r =>
          if c1 = 'a' && c2 = 'l' && c3 = 's' && c4 = 'e' then some (.bool false, r)
          else none
        | _ => none
      else if c = '"' then
        (parseStringChars (rest.length + 1) rest).map fun p => (.str ⟨p.1⟩, p.2)
      else if c = '[' then
        match skipWs rest with
        | [] => none
        | d :: r =>
          if d = ']' then some (.arr [], r)
          else (parseElems fuel (d :: r)).map fun p => (.arr p.1, p.2)
      else if c = '{' then
        match skipWs rest with
        | [] => none
        | d :: r =>
          if d = '}' then some (.obj [], r)
          else (parseFields fuel (d :: r)).map fun p => (.obj p.1, p.2)
      else if c = '-' then
        (parseNatNum rest).map fun p => (.num (-(p.1 : Int)), p.2)
      else if isDigitChar c then
        (parseNatNum (c :: rest)).map fun p => (.num (p.1 : Int), p.2)
      else none

/-- Parse one or more comma-separated array elements up to the closing `]`. -/
def parseElems : Nat → List Char → Option (List JsValue × List Char)
  | 0, _ => none
  | fuel + 1, cs =>
    match parseVal fuel cs with
    | none => none
    | some (v, r) =>
      match skipWs r with
      | [] => none
      | d :: r2 =>
        if d = ',' then (parseElems fuel r2).map fun p => (v :: p.1, p.2)
        else if d = ']' then some ([v], r2)
        else none

/-- Parse one or more comma-separated object members up to the closing `}`. -/
def parseFields : Nat → List Char → Option (List (String × JsValue) × List Char)
  | 0, _ => none
  | fuel + 1, cs =>
    match skipWs cs with
    | [] => none
    | c :: rest =>
      if c = '"' then
        match parseStringChars (rest.length + 1) rest with
        | none => none
        | some (k, r1) =>
          match skipWs r1 with
          | [] => none
          | d :: r2 =>
            if d = ':' then
              match parseVal fuel r2 with
              | none => none
              | some (v, r3) =>
                match skipWs r3 with
                | [] => none
                | e :: r4 =>
                  if e = ',' then
                    (parseFields fuel r4).map fun p => ((⟨k⟩, v) :: p.1, p.2)
                  else if e = '}' then some ([(⟨k⟩, v)], r4)
                  else none
            else none
      else none

end

/-- The model of `JSON.parse`: parse one value and require only whitespace
after it.  The fuel exceeds the input length, which bounds the nesting of
any parseable input. -/
def jsonParse (s : String) : Option JsValue :=
  match parseVal (s.data.length + 1) s.data with
  | some (v, rest) => if (skipWs rest).isEmpty then some v else none
  | none => none

example : jsonParse "[1,-25,true]" = some (.arr [.num 1, .num (-25), .bool true]) := by rfl
example : jsonParse " \x7b\"a\" : [null, \"x\\n\"] \x7d " =
    some (.obj [("a", .arr [.jnull, .str "x\n"])]) := by rfl
example : jsonParse "nope" = none := by rfl
example : jsonParse "\x7b\"a\":1" = none := by rfl
example : jsonStringify (.obj [("a", .arr [.jnull, .str "x\n"]), ("b", .num (-7))]) =
    "\x7b\"a\":[null,\"x\\n\"],\"b\":-7\x7d" := by rfl

/-! ## The `JsonPlugin` read/write boundary (src `JsonPlugin`)

Embedding of `maybeSerializeJson`, `parseJsonString` and the plugin's
`#parseValue`/`#parseFromBuffer`, together with a value-level model of the
SQLite `jsonb()`/`json()` pair they rely on. -/

/-- `ArrayBuffer.isView(value) || value instanceof ArrayBuffer`. -/
def isBufferLike : JsValue → Bool
  | .arrayBuffer _ => true
  | .bufferView _ => true
  | _ => false

/-- `value === null || value === undefined`. -/
def isNullOrUndef : JsValue → Bool
  | .jnull => true
  | .undef => true
  | _ => false

/-- `value === null` (used by `serializeValue`). -/
def isNullValue : JsValue → Bool
  | .jnull => true
  | _ => false

/-- `typeof value === "object"` (buffer objects are objects too; `null` is
handled before this test at every use site, mirroring the source order). -/
def typeofIsObject : JsValue → Bool
  | .arr _ => true
  | .obj _ => true
  | .arrayBuffer _ => true
  | .bufferView _ => true
  | .jnull => true
  | _ => false

/-- src `maybeSerializeJson`: buffers, `null` and `undefined` pass through;
objects are `JSON.stringify`ed; primitives pass through. -/
def maybeSerializeJson (value : JsValue) : JsValue :=
  if isBufferLike value then value
  else if isNullOrUndef value then value
  else if typeofIsObject value then .str (jsonStringify value)
  else value

/-- JavaScript `value.trim()` restricted to the whitespace that occurs at
this boundary (the serializer only emits ASCII whitespace). -/
def jsTrim (s : String) : String :=
  ⟨((s.data.dropWhile isWsChar).reverse.dropWhile isWsChar).reverse⟩

/-- src `parseJsonString`: return the input unchanged when the trimmed
string is empty, does not start with `{`, `[` or `"`, or fails to parse;
otherwise the parsed value. -/
def parseJsonString (value : String) : JsValue :=
  let trimmed := jsTrim value
  match trimmed.data with
  | [] => .str value
  | firstChar :: _ =>
    if firstChar ≠ '{' && firstChar ≠ '[' && firstChar ≠ '"' then .str value
    else
      match jsonParse trimmed with
      | some v => v
      | none => .str value

/-- Model of `TextDecoder().decode` on the byte lists of this development
(codes decode to the corresponding scalar values; the decoder never
throws). -/
def decodeBytes (bytes : List Nat) : String :=
  ⟨bytes.map Char.ofNat⟩

/-- Value-level model of SQLite `jsonb(text)`: parse the JSON text; the
resulting binary blob is modelled as the code sequence of the canonical
minified rendering of the parsed value.  Malformed text is an SQL error,
modelled as `none`. -/
def sqliteJsonb (text : String) : Option (List Nat) :=
  (jsonParse text).map fun v => (stringifyVal v).map Char.toNat

/-- Value-level model of `SELECT json(?)` on a blob: decode the stored
value and render it as minified JSON text. -/
def sqliteJsonText (bytes : List Nat) : Option String :=
  (jsonParse (decodeBytes bytes)).map jsonStringify

/-- src `JsonPlugin.#parseFromBuffer`: ask SQLite to render the blob as
JSON text and parse that; on failure fall back to decoding the bytes as
text and parsing; on failure return the buffer. -/
def parseFromBuffer (bytes : List Nat) : JsValue :=
  match (sqliteJsonText bytes).bind (fun serialized => jsonParse serialized) with
  | some v => v
  | none =>
    match jsonParse (decodeBytes bytes) with
    | some v => v
    | none => .bufferView bytes

/-- src `JsonPlugin.#parseValue`: `null`/`undefined` pass through, buffers
are parsed via SQLite, strings via `parseJsonString`, everything else
passes through. -/
def parseValue (value : JsValue) : JsValue :=
  match value with
  | .jnull => value
  | .undef => value
  | .arrayBuffer bs => parseFromBuffer bs
  | .bufferView bs => parseFromBuffer bs
  | .str s => parseJsonString s
  | v => v

/-! ## The `SerializeJsonBPlugin` transformer (src `SerializeJsonbTransformer`)

Embedding of `isJsonbColumn`, `serializeValue` and `transformValues` over a
model of the Kysely operation nodes they inspect. -/

/-- The Kysely operation nodes the transformer distinguishes. -/
inductive SqlNode where
  | valueNode (value : JsValue)
  | columnNode (name : String)
  | functionNode (func : String) (args : List SqlNode)
  | otherNode
deriving Repr

/-- One row of a Kysely `ValuesNode`. -/
inductive ValuesRowNode where
  | primitiveValueList (values : List JsValue)
  | valueList (values : List SqlNode)
  | otherRow
deriving Repr

/-- The plugin configuration `Record<string, string[]>`: which columns of
which tables hold JSONB. -/
def JsonbConfig : Type := List (String × List String)

/-- src `isJsonbColumn`: false without a table or with an empty column
name; otherwise membership in the configured column list of the table. -/
def isJsonbColumn (jsonbColumns : JsonbConfig) (table : Option String)
    (columnName : String) : Bool :=
  match table with
  | none => false
  | some t =>
    if t = "" || columnName = "" then false
    else
      match jsonbColumns.find? fun e => e.1 = t with
      | some e => e.2.contains columnName
      | none => false

/-- `node.value` — reading `.value` off a node that has no such field
yields `undefined`. -/
def nodeValue : SqlNode → JsValue
  | .valueNode v => v
  | _ => (.undef)

/-- `JSON.stringify` as the JavaScript-level function used by
`serializeValue`: `undefined` maps to `undefined`, everything else to a
string. -/
def jsonStringifyJs : JsValue → JsValue
  | .undef => .undef
  | v => .str (jsonStringify v)

/-- src `SerializeJsonbTransformer.serializeValue`: buffers and `null` are
left unchanged (so SQL NULL stays NULL); otherwise the value is
stringified and wrapped in SQLite `jsonb()`. -/
def serializeValue (node : SqlNode) : SqlNode :=
  let val := nodeValue node
  if isBufferLike val || isNullValue val then node
  else .functionNode "jsonb" [.valueNode (jsonStringifyJs val)]

/-- `columns?.[idx]`. -/
def colAt (columns : Option (List SqlNode)) (idx : Nat) : Option SqlNode :=
  match columns with
  | none => none
  | some cs => cs[idx]?

/-- `colNode?.kind === "ColumnNode" && this.isJsonbColumn(colNode.column.name)`. -/
def jsonbColAt (jsonbColumns : JsonbConfig) (table : Option String)
    (colNode : Option SqlNode) : Bool :=
  match colNode with
  | some (.columnNode name) => isJsonbColumn jsonbColumns table name
  | _ => false

/-- The map over a `PrimitiveValueListNode` row in src `transformValues`:
each literal value becomes a `ValueNode`, serialized when its column is a
configured JSONB column. -/
def transformPrimValues (jsonbColumns : JsonbConfig) (table : Option String)
    (columns : Option (List SqlNode)) : Nat → List JsValue → List SqlNode
  | _, [] => []
  | idx, val :: rest =>
    (if jsonbColAt jsonbColumns table (colAt columns idx) then
      serializeValue (.valueNode val)
    else
      .valueNode val)
      :: transformPrimValues jsonbColumns table columns (idx + 1) rest

/-- The map over a `ValueListNode` row in src `transformValues`: a node in
a configured JSONB column is always serialized, regardless of its kind;
other nodes pass through. -/
def transformListValues (jsonbColumns : JsonbConfig) (table : Option String)
    (columns : Option (List SqlNode)) : Nat → List SqlNode → List SqlNode
  | _, [] => []
  | idx, valNode :: rest =>
    (if jsonbColAt jsonbColumns table (colAt columns idx) then
      serializeValue valNode
    else
      valNode)
      :: transformListValues jsonbColumns table columns (idx + 1) rest

/-- src `transformValues` on one row of a `ValuesNode`. -/
def transformValuesRow (jsonbColumns : JsonbConfig) (table : Option String)
    (columns : Option (List SqlNode)) : ValuesRowNode → ValuesRowNode
  | .primitiveValueList vals =>
    .valueList (transformPrimValues jsonbColumns table columns 0 vals)
  | .valueList nodes =>
    .valueList (transformListValues jsonbColumns table columns 0 nodes)
  | .otherRow => .otherRow

/-- src `transformValues`: transform every row of the `ValuesNode`. -/
def transformValues (jsonbColumns : JsonbConfig) (table : Option String)
    (columns : Option (List SqlNode)) (rows : List ValuesRowNode) : List ValuesRowNode :=
  rows.map (transformValuesRow jsonbColumns table columns)

/-! ## The pure-JSON fragment of `JsValue` -/

/-- The keys of an object member list. -/
def keysOf (fs : List (String × JsValue)) : List String := fs.map fun kv => kv.1

/-- No key occurs twice. -/
def distinctKeys : List String → Bool
  | [] => true
  | k :: ks => !ks.contains k && distinctKeys ks

mutual

/-- A pure JSON value: no `undefined`, no buffers, and object keys are
distinct (JavaScript object keys are). -/
def isJsonVal : JsValue → Bool
  | .undef => false
  | .jnull => true
  | .bool _ => true
  | .num _ => true
  | .str _ => true
  | .arr es => isJsonElems es
  | .obj fs => isJsonFields fs && distinctKeys (keysOf fs)
  | .arrayBuffer _ => false
  | .bufferView _ => false

def isJsonElems : List JsValue → Bool
  | [] => true
  | e :: es => isJsonVal e && isJsonElems es

def isJsonFields : List (String × JsValue) → Bool
  | [] => true
  | (_, v) :: fs => isJsonVal v && isJsonFields fs

end

/-- A structured (object- or array-typed) value. -/
def isStructured : JsValue → Bool
  | .arr _ => true
  | .obj _ => true
  | _ => false

/-! ## Spec model of the SDK change-set / version / proposal engine

The implementation of these operations is not among the repository's source
files (only their tests, api docs and table declarations are), so they are
modelled from the specification.  Generated ids are natural numbers drawn
from a fresh-id counter. -/

/-- A row of the `change` table (§3 Change). -/
structure Change where
  id : Nat
  entity_id : String
  schema_key : String
  file_id : String
  snapshot_id : String
  plugin_key : String
deriving Repr, DecidableEq

/-- An element argument of `createChangeSet`/`addChangesToSet`, as the tests
pass it: the change id plus the denormalized entity/schema/file fields. -/
structure ChangeSetElementRef where
  change_id : Nat
  entity_id : String
  schema_key : String
  file_id : String
deriving Repr, DecidableEq

/-- A row of the `change_set_element` membership table (§3 Change Set). -/
structure ChangeSetElement where
  change_set_id : Nat
  change_id : Nat
  entity_id : String
  schema_key : String
  file_id : String
deriving Repr, DecidableEq

/-- A row of the `change_set` table (src `ChangeSetTable`). -/
structure ChangeSetRow where
  id : Nat
  immutable_elements : Bool
deriving Repr, DecidableEq

/-- A row of the `change_set_edge` table (§3 Change Set). -/
structure ChangeSetEdge where
  parent_id : Nat
  child_id : Nat
deriving Repr, DecidableEq

/-- A row of the `version` table (src `VersionTable`). -/
structure VersionRow where
  id : Nat
  name : Option String
  change_set_id : Nat
  working_change_set_id : Nat
deriving Repr, DecidableEq

/-- The proposal states of §4.5: `open`, `accepted`, `rejected`. -/
inductive ProposalStatus where
  | open'
  | accepted
  | rejected
deriving Repr, DecidableEq

/-- A row of the `change_proposal` table (§3 Change Proposal). -/
structure ProposalRow where
  id : Nat
  source_version_id : Nat
  target_version_id : Nat
  status : ProposalStatus
deriving Repr, DecidableEq

/-- The database state the modelled operations act on. -/
structure LixState where
  changes : List Change
  change_sets : List ChangeSetRow
  change_set_elements : List ChangeSetElement
  change_set_edges : List ChangeSetEdge
  versions : List VersionRow
  proposals : List ProposalRow
  next_id : Nat
deriving Repr, DecidableEq

/-- The error taxonomy of §7 (`invalidArguments` stands for the unnamed
failure of the `source ≠ target` requirement of §4.5). -/
inductive LixError where
  | frozenChangeSet
  | duplicateVersionName
  | invalidProposalState
  | danglingReference
  | invalidArguments
deriving Repr, DecidableEq

/-- Arguments of `createChangeSet` (§4.2). -/
structure CreateChangeSetArgs where
  elements : List ChangeSetElementRef := []
  parents : List Nat := []
  immutableElements : Bool := false
deriving Repr, DecidableEq

/-- Turn an element argument into the membership row of a change set. -/
def elementRowFor (csId : Nat) (r : ChangeSetElementRef) : ChangeSetElement :=
  { change_set_id := csId, change_id := r.change_id, entity_id := r.entity_id,
    schema_key := r.schema_key, file_id := r.file_id }

/-- Modelled from the spec: `createChangeSet` (§4.2), which is missing from
the source tree.  In one atomic unit it inserts the change-set row (with
`immutable_elements` decided now), one membership row per element, and one
edge per listed parent, all under a fresh id.  Returns the new state and the
new change set's id. -/
def createChangeSet (s : LixState) (args : CreateChangeSetArgs) : LixState × Nat :=
  let csId := s.next_id
  ({ s with
      change_sets := s.change_sets ++ [{ id := csId, immutable_elements := args.immutableElements }],
      change_set_elements := s.change_set_elements ++ args.elements.map (elementRowFor csId),
      change_set_edges := s.change_set_edges ++ args.parents.map fun p =>
        { parent_id := p, child_id := csId },
      next_id := s.next_id + 1 }, csId)

/-- Modelled from the spec: `addChangesToSet` (§4.2), which is missing from
the source tree.  Fails with `FrozenChangeSetError` when the set was created
with `immutableElements`. -/
def addChangesToSet (s : LixState) (csId : Nat) (refs : List ChangeSetElementRef) :
    Except LixError LixState :=
  match s.change_sets.find? fun cs => cs.id == csId with
  | none => .error .danglingReference
  | some cs =>
    if cs.immutable_elements then .error .frozenChangeSet
    else .ok { s with
      change_set_elements := s.change_set_elements ++ refs.map (elementRowFor csId) }

/-- Is the version name already taken? -/
def dupName (s : LixState) (name : Option String) : Bool :=
  match name with
  | none => false
  | some n => s.versions.any fun v => v.name == some n

/-- Modelled from the spec: `createVersion` (§4.4), which is missing from the
source tree.  Head is the source version's head; the working change set is a
fresh empty mutable one; duplicate names fail. -/
def createVersion (s : LixState) (fromVersionId : Nat) (name : Option String) :
    Except LixError (LixState × Nat) :=
  match s.versions.find? fun v => v.id == fromVersionId with
  | none => .error .danglingReference
  | some fromV =>
    if dupName s name then .error .duplicateVersionName
    else
      let wcsId := s.next_id
      let vId := s.next_id + 1
      .ok ({ s with
        change_sets := s.change_sets ++ [{ id := wcsId, immutable_elements := false }],
        versions := s.versions ++
          [{ id := vId, name := name, change_set_id := fromV.change_set_id,
             working_change_set_id := wcsId }],
        next_id := s.next_id + 2 }, vId)

/-- Modelled from the spec: `createChangeProposal` (§4.5), which is missing
from the source tree.  Requires resolvable `source ≠ target`; records the
pair with status `open`. -/
def createChangeProposal (s : LixState) (sourceId targetId : Nat) :
    Except LixError (LixState × Nat) :=
  if sourceId = targetId then .error .invalidArguments
  else
    match s.versions.find? fun v => v.id == sourceId,
        s.versions.find? fun v => v.id == targetId with
    | some _, some _ =>
      let pId := s.next_id
      .ok ({ s with
        proposals := s.proposals ++
          [{ id := pId, source_version_id := sourceId, target_version_id := targetId,
             status := .open' }],
        next_id := s.next_id + 1 }, pId)
    | _, _ => .error .danglingReference

/-- Modelled from the spec: `acceptChangeProposal` (§4.5), which is missing
from the source tree.  Only an `open` proposal can be accepted; the merge is
a fresh change set whose parents are the two heads, becoming target's new
head; status becomes `accepted`; the source version is kept. -/
def acceptChangeProposal (s : LixState) (pId : Nat) : Except LixError LixState :=
  match s.proposals.find? fun q => q.id == pId with
  | none => .error .danglingReference
  | some p =>
    if p.status ≠ .open' then .error .invalidProposalState
    else
      match s.versions.find? fun v => v.id == p.source_version_id,
          s.versions.find? fun v => v.id == p.target_version_id with
      | some src, some tgt =>
        let mergeCs := s.next_id
        .ok { s with
          change_sets := s.change_sets ++ [{ id := mergeCs, immutable_elements := true }],
          change_set_edges := s.change_set_edges ++
            [{ parent_id := tgt.change_set_id, child_id := mergeCs },
             { parent_id := src.change_set_id, child_id := mergeCs }],
          versions := s.versions.map fun v =>
            if v.id = tgt.id then { v with change_set_id := mergeCs } else v,
          proposals := s.proposals.map fun q =>
            if q.id = pId then { q with status := .accepted } else q,
          next_id := s.next_id + 1 }
      | _, _ => .error .danglingReference

/-- Modelled from the spec: `rejectChangeProposal` (§4.5, cascade of §4.4),
which is missing from the source tree.  Only an `open` proposal can be
rejected; the source version row and its working change set (with its
membership rows) are deleted; target and the history edges are untouched;
status becomes `rejected`. -/
def rejectChangeProposal (s : LixState) (pId : Nat) : Except LixError LixState :=
  match s.proposals.find? fun q => q.id == pId with
  | none => .error .danglingReference
  | some p =>
    if p.status ≠ .open' then .error .invalidProposalState
    else
      match s.versions.find? fun v => v.id == p.source_version_id with
      | none => .error .danglingReference
      | some src =>
        .ok { s with
          versions := s.versions.filter fun v => v.id ≠ src.id,
          change_sets := s.change_sets.filter fun cs => cs.id ≠ src.working_change_set_id,
          change_set_elements := s.change_set_elements.filter fun e =>
            e.change_set_id ≠ src.working_change_set_id,
          proposals := s.proposals.map fun q =>
            if q.id = pId then { q with status := .rejected } else q }

/-- One public operation of the modelled engine. -/
inductive LixOp where
  | createChangeSet (args : CreateChangeSetArgs)
  | addChangesToSet (csId : Nat) (refs : List ChangeSetElementRef)
  | createVersion (fromVersionId : Nat) (name : Option String)
  | createChangeProposal (sourceId targetId : Nat)
  | acceptChangeProposal (pId : Nat)
  | rejectChangeProposal (pId : Nat)
deriving Repr, DecidableEq

/-- Modelled from the spec: every operation runs in one transaction, so a
failing operation rolls back and leaves the state unchanged (§5, §7). -/
def applyOp (s : LixState) : LixOp → LixState
  | .createChangeSet args => (createChangeSet s args).1
  | .addChangesToSet csId refs =>
    match addChangesToSet s csId refs with
    | .ok s' => s'
    | .error _ => s
  | .createVersion fromVersionId name =>
    match createVersion s fromVersionId name with
    | .ok p => p.1
    | .error _ => s
  | .createChangeProposal sourceId targetId =>
    match createChangeProposal s sourceId targetId with
    | .ok p => p.1
    | .error _ => s
  | .acceptChangeProposal pId =>
    match acceptChangeProposal s pId with
    | .ok s' => s'
    | .error _ => s
  | .rejectChangeProposal pId =>
    match rejectChangeProposal s pId with
    | .ok s' => s'
    | .error _ => s

/-- A sequence of operations, applied left to right. -/
def applyOps (s : LixState) (ops : List LixOp) : LixState := ops.foldl applyOp s

/-- Every id generated so far is below the fresh-id counter — the invariant
the fresh-id generator maintains. -/
def idsBelow (s : LixState) : Prop :=
  (∀ cs ∈ s.change_sets, cs.id < s.next_id) ∧
  (∀ e ∈ s.change_set_elements, e.change_set_id < s.next_id) ∧
  (∀ ed ∈ s.change_set_edges, ed.child_id < s.next_id) ∧
  (∀ v ∈ s.versions, v.id < s.next_id) ∧
  (∀ p ∈ s.proposals, p.id < s.next_id)

/-! ## Ancestry queries (§4.6) -/

/-- The parents of a change set, read off the edge table. -/
def parentsOf (edges : List ChangeSetEdge) (csId : Nat) : List Nat :=
  (edges.filter fun e => e.child_id == csId).map fun e => e.parent_id

/-- Modelled from the spec: the `ancestors` traversal (§4.6), which is
missing from the source tree — a worklist traversal of parent edges keeping
a visited list so that each change set is yielded at most once.  The fuel
only bounds the loop and is chosen generously at the call site. -/
def ancestorsAux (edges : List ChangeSetEdge) : Nat → List Nat → List Nat → List Nat
  | 0, _, visited => visited
  | _ + 1, [], visited => visited
  | fuel + 1, x :: frontier, visited =>
    if visited.contains x then ancestorsAux edges fuel frontier visited
    else ancestorsAux edges fuel (frontier ++ parentsOf edges x) (visited ++ [x])

/-- Modelled from the spec: `ancestors(changeSet)` (§4.6) — the proper
ancestors of a change set, each at most once. -/
def ancestors (edges : List ChangeSetEdge) (csId : Nat) : List Nat :=
  ancestorsAux edges ((edges.length + 1) * (edges.length + 1)) (parentsOf edges csId) []

/-- `a` is a proper ancestor of `b`: reachable from `b` through one or more
parent edges. -/
inductive ReachesParent (edges : List ChangeSetEdge) : Nat → Nat → Prop where
  | step {p c : Nat} : ChangeSetEdge.mk p c ∈ edges → ReachesParent edges p c
  | trans {a b c : Nat} : ReachesParent edges a b → ReachesParent edges b c →
      ReachesParent edges a c

/-- Modelled from the spec: file visibility under a version (§3, §8) — some
change set among the version's head and its ancestors carries a membership
row for the file. -/
def fileVisible (s : LixState) (v : VersionRow) (fileId : String) : Bool :=
  let csIds := v.change_set_id :: ancestors s.change_set_edges v.change_set_id
  s.change_set_elements.any fun e => csIds.contains e.change_set_id && e.file_id == fileId

/-! ## File queue settlement (§4.3) -/

/-- Status of a file queue entry (§4.3). -/
inductive FileQueueStatus where
  | pending
  | processing
  | error
deriving Repr, DecidableEq

/-- A row of the `file_queue` table, as far as settlement is concerned. -/
structure FileQueueEntry where
  id : Nat
  status : FileQueueStatus
deriving Repr, DecidableEq

/-- Modelled from the spec: an entry blocks settlement while `pending` or
`processing`; `error` entries do not (§4.3). -/
def blocksSettlement (e : FileQueueEntry) : Bool :=
  e.status == .pending || e.status == .processing

/-- Modelled from the spec: the queue is settled when no `pending` or
`processing` rows remain (§4.3). -/
def queueSettled (entries : List FileQueueEntry) : Bool :=
  entries.all fun e => !blocksSettlement e

/-- Poll loop of `fileQueueSettled`, counting polls. -/
def fileQueueSettledAux : Nat → List (List FileQueueEntry) → Option Nat
  | _, [] => none
  | i, q :: qs => if queueSettled q then some i else fileQueueSettledAux (i + 1) qs

/-- Modelled from the spec: `fileQueueSettled` (§4.3 and its api doc), whose
implementation is missing from the source tree.  Over a trace of queue
snapshots (one per poll, the first being the state at the call), it resolves
at the first settled snapshot; `none` means it is still waiting when the
observed trace ends. -/
def fileQueueSettled (trace : List (List FileQueueEntry)) : Option Nat :=
  fileQueueSettledAux 0 trace

/-! ### Concrete witness data for the SDK-model claims -/

/-- Concrete change row used by witness checks. -/
def wChange1 : Change :=
  { id := 0, entity_id := "value1", schema_key := "file",
    file_id := "mock", snapshot_id := "no-content", plugin_key := "mock-plugin" }

/-- Second concrete change row used by witness checks. -/
def wChange2 : Change :=
  { id := 1, entity_id := "value2", schema_key := "file",
    file_id := "mock", snapshot_id := "no-content", plugin_key := "mock-plugin" }

/-- Concrete state with two changes, used by the C4 witness. -/
def wStateC4 : LixState :=
  { changes := [wChange1, wChange2], change_sets := [],
    change_set_elements := [], change_set_edges := [], versions := [],
    proposals := [], next_id := 2 }

/-- Element reference to `wChange1`. -/
def wRef1 : ChangeSetElementRef :=
  { change_id := 0, entity_id := "value1", schema_key := "file", file_id := "mock" }

/-- Element reference to `wChange2`. -/
def wRef2 : ChangeSetElementRef :=
  { change_id := 1, entity_id := "value2", schema_key := "file", file_id := "mock" }

/-- Empty concrete state used by witness checks. -/
def wEmptyState : LixState :=
  { changes := [], change_sets := [], change_set_elements := [],
    change_set_edges := [], versions := [], proposals := [], next_id := 0 }

/-- Concrete proposal row in a terminal state, used by the C8 witness. -/
def wProp : ProposalRow :=
  { id := 0, source_version_id := 1, target_version_id := 2, status := .accepted }

/-- Concrete state holding `wProp`, used by the C8 witness. -/
def wStateC8 : LixState :=
  { changes := [], change_sets := [], change_set_elements := [],
    change_set_edges := [], versions := [], proposals := [wProp], next_id := 3 }

/-- Concrete target version (`main`), used by the C1 witness. -/
def wTgt : VersionRow :=
  { id := 1, name := some "main", change_set_id := 3, working_change_set_id := 3 }

/-- Concrete source version (`stage`), used by the C1 witness. -/
def wSrc : VersionRow :=
  { id := 2, name := some "stage", change_set_id := 4, working_change_set_id := 4 }

/-- Concrete open proposal from `wSrc` to `wTgt`, used by the C1 witness. -/
def wPropC1 : ProposalRow :=
  { id := 0, source_version_id := 2, target_version_id := 1, status := .open' }

/-- Concrete state for the C1 witness: two versions, an open proposal, and a
file membership row that exists only in the source version's history. -/
def wStateC1 : LixState :=
  { changes := [],
    change_sets := [{ id := 3, immutable_elements := false },
      { id := 4, immutable_elements := false }],
    change_set_elements :=
      [{ change_set_id := 4, change_id := 0,
         entity_id := "e", schema_key := "file", file_id := "f2" }],
    change_set_edges := [], versions := [wTgt, wSrc],
    proposals := [wPropC1], next_id := 5 }

/-- Concrete diamond history used by the C7 witness: change set 0 has parents
1 and 2, which share the single parent 3. -/
def wEdges : List ChangeSetEdge :=
  [{ parent_id := 1, child_id := 0 }, { parent_id := 2, child_id := 0 },
   { parent_id := 3, child_id := 1 }, { parent_id := 3, child_id := 2 }]

/-- Concrete state with two existing change sets, used by the C5 witness. -/
def wStateC5 : LixState :=
  { changes := [],
    change_sets := [{ id := 0, immutable_elements := false },
      { id := 1, immutable_elements := false }],
    change_set_elements := [], change_set_edges := [], versions := [],
    proposals := [], next_id := 2 }


/-! ## Lemmas: decimal rendering round trip -/

theorem natToCharsAux_eq : ∀ n fuel acc, n < fuel →
    natToCharsAux fuel n acc = natToChars n ++ acc := by
  intro n
  induction n using Nat.strong_induction_on with
  | _ n ih =>
    intro fuel acc h
    cases fuel with
    | zero => omega
    | succ fuel =>
      by_cases h10 : n < 10
      · simp [natToCharsAux, natToChars, h10]
      · have hdiv : n / 10 < n := Nat.div_lt_self (by omega) (by omega)
        have h1 : natToCharsAux (fuel + 1) n acc
            = natToCharsAux fuel (n / 10) (Nat.digitChar (n % 10) :: acc) := by
          simp [natToCharsAux, h10]
        have h2 : natToChars n = natToCharsAux n (n / 10) [Nat.digitChar (n % 10)] := by
          simp [natToChars, natToCharsAux, h10]
        rw [h1, ih (n / 10) hdiv fuel _ (by omega), h2,
          ih (n / 10) hdiv n _ (by omega)]
        simp

theorem natToChars_eq_of_lt {n : Nat} (h : n < 10) :
    natToChars n = [Nat.digitChar n] := by
  simp [natToChars, natToCharsAux, h]

theorem natToChars_eq_of_ge {n : Nat} (h : ¬ n < 10) :
    natToChars n = natToChars (n / 10) ++ [Nat.digitChar (n % 10)] := by
  have hdiv : n / 10 < n := Nat.div_lt_self (by omega) (by omega)
  have h2 : natToChars n = natToCharsAux n (n / 10) [Nat.digitChar (n % 10)] := by
    simp [natToChars, natToCharsAux, h]
  rw [h2, natToCharsAux_eq (n / 10) n _ (by omega)]

theorem isDigitChar_digitChar {m : Nat} (h : m < 10) :
    isDigitChar (Nat.digitChar m) = true := by
  interval_cases m <;> decide

theorem digitChar_toNat {m : Nat} (h : m < 10) : (Nat.digitChar m).toNat = m + 48 := by
  interval_cases m <;> decide

theorem natToChars_all_digits (n : Nat) : ∀ c ∈ natToChars n, isDigitChar c = true := by
  induction n using Nat.strong_induction_on with
  | _ n ih =>
    by_cases h10 : n < 10
    · rw [natToChars_eq_of_lt h10]
      intro c hc
      simp only [List.mem_singleton] at hc
      subst hc
      exact isDigitChar_digitChar h10
    · have hdiv : n / 10 < n := Nat.div_lt_self (by omega) (by omega)
      rw [natToChars_eq_of_ge h10]
      intro c hc
      rcases List.mem_append.mp hc with h | h
      · exact ih _ hdiv c h
      · simp only [List.mem_singleton] at h
        subst h
        exact isDigitChar_digitChar (Nat.mod_lt _ (by omega))

theorem digitsVal_natToChars (n : Nat) : digitsVal (natToChars n) = n := by
  induction n using Nat.strong_induction_on with
  | _ n ih =>
    by_cases h10 : n < 10
    · rw [natToChars_eq_of_lt h10]
      simp [digitsVal, digitChar_toNat h10]
    · have hdiv : n / 10 < n := Nat.div_lt_self (by omega) (by omega)
      rw [natToChars_eq_of_ge h10]
      have hm : n % 10 < 10 := Nat.mod_lt _ (by omega)
      simp only [digitsVal, List.foldl_append, List.foldl_cons, List.foldl_nil]
      have hr : List.foldl (fun a c => a * 10 + (c.toNat - 48)) 0 (natToChars (n / 10))
          = n / 10 := ih _ hdiv
      rw [hr, digitChar_toNat hm]
      omega

theorem natToChars_ne_nil (n : Nat) : natToChars n ≠ [] := by
  by_cases h10 : n < 10
  · rw [natToChars_eq_of_lt h10]; simp
  · rw [natToChars_eq_of_ge h10]; simp

theorem natToChars_cons (n : Nat) :
    ∃ d ds, natToChars n = d :: ds ∧ isDigitChar d = true := by
  cases hc : natToChars n with
  | nil => exact absurd hc (natToChars_ne_nil n)
  | cons d ds =>
    refine ⟨d, ds, rfl, ?_⟩
    exact natToChars_all_digits n d (by rw [hc]; simp)

theorem takeWhile_digits_append {l rest : List Char}
    (hl : ∀ c ∈ l, isDigitChar c = true) (hrest : digitFree rest = true) :
    (l ++ rest).takeWhile isDigitChar = l ∧ (l ++ rest).dropWhile isDigitChar = rest := by
  induction l with
  | nil =>
    simp only [List.nil_append]
    cases rest with
    | nil => simp
    | cons c r =>
      simp only [digitFree, Bool.not_eq_true'] at hrest
      simp [List.takeWhile_cons, List.dropWhile_cons, hrest]
  | cons c l ih =>
    have hc : isDigitChar c = true := hl c (by simp)
    have hl' : ∀ x ∈ l, isDigitChar x = true := fun x hx => hl x (by simp [hx])
    obtain ⟨ht, hd⟩ := ih hl'
    simp [List.takeWhile_cons, List.dropWhile_cons, hc, ht, hd]

theorem parseNatNum_natToChars (n : Nat) (rest : List Char) (h : digitFree rest = true) :
    parseNatNum (natToChars n ++ rest) = some (n, rest) := by
  obtain ⟨ht, hd⟩ := takeWhile_digits_append (natToChars_all_digits n) h
  have hne : (natToChars n).isEmpty = false := by
    obtain ⟨d, ds, hcons, -⟩ := natToChars_cons n
    rw [hcons]; rfl
  simp [parseNatNum, ht, hd, hne, digitsVal_natToChars]

/-! ## Lemmas: string escaping round trip -/

theorem hexVal_lowerHexChar {m : Nat} (h : m < 16) : hexVal (lowerHexChar m) = some m := by
  interval_cases m <;> decide

theorem parseStringChars_escapeList (s : List Char) : ∀ fuel rest,
    (escapeList s).length < fuel →
    parseStringChars fuel (escapeList s ++ '"' :: rest) = some (s, rest) := by
  induction s with
  | nil =>
    intro fuel rest h
    cases fuel with
    | zero => omega
    | succ fuel => simp [escapeList, parseStringChars]
  | cons c s ih =>
    intro fuel rest h
    rw [escapeList] at h ⊢
    by_cases h1 : c = '"'
    · subst h1
      rw [show escapeChar '"' = ['\\', '"'] from rfl] at h ⊢
      cases fuel with
      | zero => omega
      | succ fuel =>
        simp only [List.cons_append, List.nil_append, List.length_cons,
          List.length_append, List.append_assoc] at h ⊢
        simp only [parseStringChars, simpleEscape]
        norm_num
        rw [ih fuel rest (by omega)]
        rfl
    · by_cases h2 : c = '\\'
      · subst h2
        rw [show escapeChar '\\' = ['\\', '\\'] from rfl] at h ⊢
        cases fuel with
        | zero => omega
        | succ fuel =>
          simp only [List.cons_append, List.nil_append, List.length_cons,
            List.length_append, List.append_assoc] at h ⊢
          simp only [parseStringChars, simpleEscape]
          norm_num
          rw [ih fuel rest (by omega)]
          rfl
      · by_cases h3 : c = Char.ofNat 8
        · subst h3
          rw [show escapeChar (Char.ofNat 8) = ['\\', 'b'] from rfl] at h ⊢
          cases fuel with
          | zero => omega
          | succ fuel =>
            simp only [List.cons_append, List.nil_append, List.length_cons,
            List.length_append, List.append_assoc] at h ⊢
            simp only [parseStringChars, simpleEscape]
            norm_num
            rw [ih fuel rest (by omega)]
            rfl
        · by_cases h4 : c = Char.ofNat 9
          · subst h4
            rw [show escapeChar (Char.ofNat 9) = ['\\', 't'] from rfl] at h ⊢
            cases fuel with
            | zero => omega
            | succ fuel =>
              simp only [List.cons_append, List.nil_append, List.length_cons,
                List.length_append, List.append_assoc] at h ⊢
              simp only [parseStringChars, simpleEscape]
              norm_num
              rw [ih fuel rest (by omega)]
              rfl
          · by_cases h5 : c = Char.ofNat 10
            · subst h5
              rw [show escapeChar (Char.ofNat 10) = ['\\', 'n'] from rfl] at h ⊢
              cases fuel with
              | zero => omega
              | succ fuel =>
                simp only [List.cons_append, List.nil_append, List.length_cons,
                  List.length_append, List.append_assoc] at h ⊢
                simp only [parseStringChars, simpleEscape]
                norm_num
                rw [ih fuel rest (by omega)]
                rfl
            · by_cases h6 : c = Char.ofNat 12
              · subst h6
                rw [show escapeChar (Char.ofNat 12) = ['\\', 'f'] from rfl] at h ⊢
                cases fuel with
                | zero => omega
                | succ fuel =>
                  simp only [List.cons_append, List.nil_append, List.length_cons,
                    List.length_append, List.append_assoc] at h ⊢
                  simp only [parseStringChars, simpleEscape]
                  norm_num
                  rw [ih fuel rest (by omega)]
                  rfl
              · by_cases h7 : c = Char.ofNat 13
                · subst h7
                  rw [show escapeChar (Char.ofNat 13) = ['\\', 'r'] from rfl] at h ⊢
                  cases fuel with
                  | zero => omega
                  | succ fuel =>
                    simp only [List.cons_append, List.nil_append, List.length_cons,
                      List.length_append, List.append_assoc] at h ⊢
                    simp only [parseStringChars, simpleEscape]
                    norm_num
                    rw [ih fuel rest (by omega)]
                    rfl
                · by_cases h32 : c.toNat < 32
                  · have hesc : escapeChar c = ['\\', 'u', '0', '0',
                        lowerHexChar (c.toNat / 16), lowerHexChar (c.toNat % 16)] := by
                      simp [escapeChar, h1, h2, h3, h4, h5, h6, h7, h32]
                    rw [hesc] at h ⊢
                    cases fuel with
                    | zero => omega
                    | succ fuel =>
                      simp only [List.cons_append, List.nil_append, List.length_cons,
                        List.length_append, List.append_assoc] at h ⊢
                      simp only [parseStringChars]
                      norm_num
                      rw [show hexVal '0' = some 0 from rfl,
                        hexVal_lowerHexChar (show c.toNat / 16 < 16 by omega),
                        hexVal_lowerHexChar (show c.toNat % 16 < 16 by omega)]
                      simp only
                      have hcode : ((0 * 16 + 0) * 16 + c.toNat / 16) * 16 + c.toNat % 16
                          = c.toNat := by omega
                      rw [hcode]
                      rw [if_neg (show ¬('\\' = '"') from by decide)]
                      rw [if_neg (show ¬(55296 ≤ c.toNat ∧ c.toNat ≤ 56319) from by omega)]
                      rw [if_neg (show ¬(56320 ≤ c.toNat ∧ c.toNat ≤ 57343) from by omega)]
                      rw [Char.ofNat_toNat, ih fuel rest (by omega)]
                      rfl
                  · have hesc : escapeChar c = [c] := by
                      simp [escapeChar, h1, h2, h3, h4, h5, h6, h7, h32]
                    rw [hesc] at h ⊢
                    cases fuel with
                    | zero => omega
                    | succ fuel =>
                      simp only [List.cons_append, List.nil_append, List.length_cons,
                        List.length_append, List.append_assoc] at h ⊢
                      simp only [parseStringChars]
                      rw [if_neg h1, if_neg h2, if_neg h32, ih fuel rest (by omega)]
                      rfl

/-! ## Lemmas: the parser inverts the serializer -/

theorem skipWs_cons {c : Char} {cs : List Char} (h : isWsChar c = false) :
    skipWs (c :: cs) = c :: cs := by
  simp [skipWs, List.dropWhile_cons, h]

theorem isDigitChar_facts {d : Char} (h : isDigitChar d = true) :
    isWsChar d = false ∧ d ≠ 'n' ∧ d ≠ 't' ∧ d ≠ 'f' ∧ d ≠ '"' ∧ d ≠ '[' ∧
      d ≠ '{' ∧ d ≠ '-' ∧ d ≠ ']' ∧ d ≠ '}' ∧ d ≠ ',' ∧ d ≠ ':' := by
  simp only [isDigitChar, Bool.and_eq_true, decide_eq_true_eq] at h
  refine ⟨?_, ?_, ?_, ?_, ?_, ?_, ?_, ?_, ?_, ?_, ?_, ?_⟩
  · simp only [isWsChar, Bool.or_eq_false_iff, decide_eq_false_iff_not]
    refine ⟨⟨⟨?_, ?_⟩, ?_⟩, ?_⟩ <;> · rintro rfl; revert h; decide
  all_goals · rintro rfl; revert h; decide

theorem stringifyVal_head (v : JsValue) :
    ∃ d ds, stringifyVal v = d :: ds ∧ isWsChar d = false ∧ d ≠ ']' ∧ d ≠ '}' ∧
      d ≠ ',' ∧ d ≠ ':' := by
  cases v with
  | undef => exact ⟨'n', _, rfl, by decide, by decide, by decide, by decide, by decide⟩
  | jnull => exact ⟨'n', _, rfl, by decide, by decide, by decide, by decide, by decide⟩
  | bool b =>
    cases b with
    | true => exact ⟨'t', _, rfl, by decide, by decide, by decide, by decide, by decide⟩
    | false => exact ⟨'f', _, rfl, by decide, by decide, by decide, by decide, by decide⟩
  | num n =>
    by_cases hn : n < 0
    · refine ⟨'-', natToChars n.natAbs, ?_, by decide, by decide, by decide, by decide,
        by decide⟩
      simp [stringifyVal, intToChars, hn]
    · obtain ⟨d, ds, hcons, hd⟩ := natToChars_cons n.toNat
      obtain ⟨hws, -, -, -, -, -, -, -, hr, hbr, hcm, hcl⟩ := isDigitChar_facts hd
      refine ⟨d, ds, ?_, hws, hr, hbr, hcm, hcl⟩
      simp [stringifyVal, intToChars, hn, hcons]
  | str s => exact ⟨'"', _, rfl, by decide, by decide, by decide, by decide, by decide⟩
  | arr es => exact ⟨'[', _, rfl, by decide, by decide, by decide, by decide, by decide⟩
  | obj fs => exact ⟨'{', _, rfl, by decide, by decide, by decide, by decide, by decide⟩
  | arrayBuffer bs =>
    exact ⟨'{', _, rfl, by decide, by decide, by decide, by decide, by decide⟩
  | bufferView bs =>
    exact ⟨'{', _, rfl, by decide, by decide, by decide, by decide, by decide⟩

theorem keptField_of_isJson {v : JsValue} (h : isJsonVal v = true) :
    keptField v = true := by
  cases v <;> simp_all [keptField, isJsonVal]

theorem stringifyElems_cons_eq (e : JsValue) (es : List JsValue) :
    ∃ tail, stringifyElems (e :: es) = stringifyVal e ++ tail ∧
      (es = [] → tail = []) ∧ (es ≠ [] → tail = ',' :: stringifyElems es) := by
  cases es with
  | nil => exact ⟨[], by simp [stringifyElems], fun _ => rfl, by simp⟩
  | cons e2 es2 =>
    exact ⟨',' :: stringifyElems (e2 :: es2), rfl, by simp, fun _ => rfl⟩

theorem stringifyFields_cons_eq (k : String) (v : JsValue) (fs : List (String × JsValue))
    (hv : keptField v = true) :
    ∃ tail, stringifyFields ((k, v) :: fs) = quoteChars k.data ++ ':' :: (stringifyVal v ++ tail) ∧
      (hasKeptField fs = false → tail = []) ∧
      (hasKeptField fs = true → tail = ',' :: stringifyFields fs) := by
  by_cases h : hasKeptField fs
  · refine ⟨',' :: stringifyFields fs, ?_, by simp [h], fun _ => rfl⟩
    simp [stringifyFields, hv, h]
  · refine ⟨[], ?_, fun _ => rfl, by simp [h]⟩
    simp only [Bool.not_eq_true] at h
    simp [stringifyFields, hv, h]

theorem hasKeptField_cons_of_isJson {k : String} {v : JsValue}
    {fs : List (String × JsValue)} (h : isJsonVal v = true) :
    hasKeptField ((k, v) :: fs) = true := by
  simp [hasKeptField, keptField_of_isJson h]

theorem parse_stringify_all : ∀ fuel : Nat,
    (∀ v rest, isJsonVal v = true → (stringifyVal v).length < fuel → digitFree rest = true →
      parseVal fuel (stringifyVal v ++ rest) = some (v, rest)) ∧
    (∀ es rest, es ≠ [] → isJsonElems es = true →
      (stringifyElems es).length + 1 < fuel →
      parseElems fuel (stringifyElems es ++ ']' :: rest) = some (es, rest)) ∧
    (∀ fs rest, fs ≠ [] → isJsonFields fs = true →
      (stringifyFields fs).length + 1 < fuel →
      parseFields fuel (stringifyFields fs ++ '}' :: rest) = some (fs, rest)) := by
  intro fuel
  induction fuel using Nat.strong_induction_on with
  | _ fuel ih =>
    refine ⟨?_, ?_, ?_⟩
    · intro v rest hjson hlen hdf
      match fuel, hlen with
      | fuel + 1, hlen =>
      cases v with
      | undef => simp [isJsonVal] at hjson
      | arrayBuffer bs => simp [isJsonVal] at hjson
      | bufferView bs => simp [isJsonVal] at hjson
      | jnull =>
        simp only [stringifyVal, List.cons_append, List.nil_append]
        rw [parseVal, skipWs_cons (by decide)]
        simp
      | bool b =>
        cases b with
        | true =>
          simp only [stringifyVal, List.cons_append, List.nil_append]
          rw [parseVal, skipWs_cons (by decide)]
          simp
        | false =>
          simp only [stringifyVal, List.cons_append, List.nil_append]
          rw [parseVal, skipWs_cons (by decide)]
          simp
      | num n =>
        simp only [stringifyVal, intToChars]
        by_cases hn : n < 0
        · rw [if_pos hn]
          simp only [List.cons_append]
          rw [parseVal, skipWs_cons (by decide)]
          norm_num
          simp [parseNatNum_natToChars n.natAbs rest hdf]
          rw [Int.abs_eq_natAbs]
          omega
        · rw [if_neg hn]
          obtain ⟨d, ds, hcons, hd⟩ := natToChars_cons n.toNat
          obtain ⟨hws, hne1, hne2, hne3, hne4, hne5, hne6, hne7, -, -, -, -⟩ :=
            isDigitChar_facts hd
          rw [hcons]
          simp only [List.cons_append]
          rw [parseVal, skipWs_cons hws]
          have hint : (n.toNat : Int) = n := by omega
          have hrw : d :: (ds ++ rest) = natToChars n.toNat ++ rest := by
            rw [hcons]; simp
          simp [hne1, hne2, hne3, hne4, hne5, hne6, hne7, hd, hrw,
            parseNatNum_natToChars n.toNat rest hdf, hint]
      | str s =>
        simp only [stringifyVal, quoteChars, List.cons_append, List.append_assoc]
        rw [parseVal, skipWs_cons (by decide)]
        norm_num +decide
        exact ⟨s.data, parseStringChars_escapeList s.data _ rest (by omega), rfl⟩
      | arr es =>
        cases es with
        | nil =>
          simp only [stringifyVal, stringifyElems, List.nil_append, List.cons_append]
          rw [parseVal, skipWs_cons (by decide)]
          norm_num
          rw [skipWs_cons (by decide)]
          simp
        | cons e es' =>
          obtain ⟨tail, htail, htail0, htail1⟩ := stringifyElems_cons_eq e es'
          obtain ⟨d, ds, hcons, hws, hbr, hbc, hcm, hcl⟩ := stringifyVal_head e
          simp only [stringifyVal, List.cons_append, List.append_assoc]
          rw [parseVal, skipWs_cons (by decide), htail, hcons]
          simp only [List.cons_append, List.append_assoc]
          rw [skipWs_cons hws]
          norm_num +decide [hbr]
          have happ := (ih fuel (by omega)).2.1 (e :: es') rest (by simp)
            (by simpa [isJsonVal] using hjson)
            (by
              simp only [stringifyVal, List.length_cons, List.length_append] at hlen
              omega)
          rw [htail, hcons] at happ
          simpa using happ
      | obj fs =>
        cases fs with
        | nil =>
          simp only [stringifyVal, stringifyFields, List.nil_append, List.cons_append]
          rw [parseVal, skipWs_cons (by decide)]
          norm_num
          rw [skipWs_cons (by decide)]
          simp
        | cons kv fs' =>
          obtain ⟨k, v⟩ := kv
          have hjson' := hjson
          simp only [isJsonVal, Bool.and_eq_true, isJsonFields] at hjson'
          have hkv : keptField v = true := keptField_of_isJson hjson'.1.1
          obtain ⟨tail, htail, htail0, htail1⟩ := stringifyFields_cons_eq k v fs' hkv
          simp only [stringifyVal, List.cons_append, List.append_assoc]
          rw [parseVal, skipWs_cons (by decide), htail]
          simp only [quoteChars, List.cons_append, List.append_assoc]
          rw [skipWs_cons (by decide)]
          norm_num +decide
          have happ := (ih fuel (by omega)).2.2 ((k, v) :: fs') rest (by simp)
            (by simp [isJsonFields, hjson'.1.1, hjson'.1.2])
            (by
              simp only [stringifyVal, List.length_cons, List.length_append] at hlen
              omega)
          rw [htail] at happ
          simpa [quoteChars] using happ
    · intro es rest hne hjson hlen
      match fuel, hlen with
      | fuel + 1, hlen =>
      cases es with
      | nil => exact absurd rfl hne
      | cons e es' =>
        simp only [isJsonElems, Bool.and_eq_true] at hjson
        rw [parseElems]
        cases es' with
        | nil =>
          simp only [stringifyElems]
          rw [(ih fuel (by omega)).1 e (']' :: rest) hjson.1
            (by simp only [stringifyElems] at hlen; omega) rfl]
          norm_num +decide [skipWs, List.dropWhile_cons]
        | cons e2 es'' =>
          have hsing : stringifyElems (e :: e2 :: es'')
              = stringifyVal e ++ ',' :: stringifyElems (e2 :: es'') := rfl
          rw [hsing]
          simp only [List.cons_append, List.append_assoc]
          rw [(ih fuel (by omega)).1 e (',' :: (stringifyElems (e2 :: es'') ++ ']' :: rest))
            hjson.1
            (by
              rw [hsing] at hlen
              simp only [List.length_append, List.length_cons] at hlen
              omega)
            rfl]
          norm_num +decide [skipWs, List.dropWhile_cons]
          have happ := (ih fuel (by omega)).2.1 (e2 :: es'') rest (by simp) hjson.2
            (by
              rw [hsing] at hlen
              simp only [List.length_append, List.length_cons] at hlen
              omega)
          simp [happ]
    · intro fs rest hne hjson hlen
      match fuel, hlen with
      | fuel + 1, hlen =>
      cases fs with
      | nil => exact absurd rfl hne
      | cons kv fs' =>
        obtain ⟨k, v⟩ := kv
        simp only [isJsonFields, Bool.and_eq_true] at hjson
        have hkv : keptField v = true := keptField_of_isJson hjson.1
        obtain ⟨tail, htail, htail0, htail1⟩ := stringifyFields_cons_eq k v fs' hkv
        have hlen' := hlen
        rw [htail] at hlen'
        simp only [quoteChars, List.length_append, List.length_cons] at hlen'
        rw [parseFields, htail]
        simp only [quoteChars, List.cons_append, List.append_assoc]
        rw [skipWs_cons (by decide)]
        norm_num +decide
        rw [parseStringChars_escapeList k.data _ _ (by omega)]
        norm_num +decide [skipWs, List.dropWhile_cons]
        cases fs' with
        | nil =>
          have htl : tail = [] := htail0 rfl
          subst htl
          simp only [List.nil_append]
          rw [(ih fuel (by omega)).1 v ('}' :: rest) hjson.1
            (by simp only [List.length_nil] at hlen'; omega) rfl]
          norm_num +decide [skipWs, List.dropWhile_cons]
        | cons kv2 fs'' =>
          obtain ⟨k2, v2⟩ := kv2
          have hkf : hasKeptField ((k2, v2) :: fs'') = true :=
            hasKeptField_cons_of_isJson (by
              have h2 := hjson.2
              simp only [isJsonFields, Bool.and_eq_true] at h2
              exact h2.1)
          have htl : tail = ',' :: stringifyFields ((k2, v2) :: fs'') := htail1 hkf
          subst htl
          simp only [List.cons_append, List.append_assoc]
          rw [(ih fuel (by omega)).1 v
            (',' :: (stringifyFields ((k2, v2) :: fs'') ++ '}' :: rest)) hjson.1
            (by simp only [List.length_cons] at hlen'; omega) rfl]
          norm_num +decide [skipWs, List.dropWhile_cons]
          have happ := (ih fuel (by omega)).2.2 ((k2, v2) :: fs'') rest (by simp) hjson.2
            (by simp only [List.length_cons] at hlen'; omega)
          simp [happ]

/-- The parser inverts the serializer on pure JSON values. -/
theorem jsonParse_jsonStringify {v : JsValue} (h : isJsonVal v = true) :
    jsonParse (jsonStringify v) = some v := by
  have hp := (parse_stringify_all ((stringifyVal v).length + 1)).1 v [] h (by omega) rfl
  simp only [List.append_nil] at hp
  show (match parseVal ((stringifyVal v).length + 1) (stringifyVal v) with
    | some (w, rest) => if (skipWs rest).isEmpty then some w else none
    | none => none) = some v
  rw [hp]
  rfl

/-- Trimming does not change the rendering of a structured value. -/
theorem jsTrim_stringify_structured {v : JsValue} (hs : isStructured v = true) :
    jsTrim (jsonStringify v) = jsonStringify v := by
  cases v with
  | arr es =>
    show jsTrim ⟨'[' :: (stringifyElems es ++ [']'])⟩ = ⟨'[' :: (stringifyElems es ++ [']'])⟩
    simp +decide [jsTrim, List.dropWhile_cons, List.reverse_append, List.reverse_cons,
      List.reverse_reverse, List.append_assoc]
  | obj fs =>
    show jsTrim ⟨'{' :: (stringifyFields fs ++ ['}'])⟩ = ⟨'{' :: (stringifyFields fs ++ ['}'])⟩
    simp +decide [jsTrim, List.dropWhile_cons, List.reverse_append, List.reverse_cons,
      List.reverse_reverse, List.append_assoc]
  | undef => simp [isStructured] at hs
  | jnull => simp [isStructured] at hs
  | bool b => simp [isStructured] at hs
  | num n => simp [isStructured] at hs
  | str t => simp [isStructured] at hs
  | arrayBuffer bs => simp [isStructured] at hs
  | bufferView bs => simp [isStructured] at hs

/-- `parseJsonString` inverts `JSON.stringify` on structured JSON values. -/
theorem parseJsonString_stringify {v : JsValue} (hjson : isJsonVal v = true)
    (hs : isStructured v = true) :
    parseJsonString (jsonStringify v) = v := by
  have hp := jsonParse_jsonStringify hjson
  have ht := jsTrim_stringify_structured hs
  cases v with
  | arr es =>
    simp only [parseJsonString, ht]
    rw [show (jsonStringify (JsValue.arr es)).data = '[' :: (stringifyElems es ++ [']'])
      from rfl]
    simp +decide [hp]
  | obj fs =>
    simp only [parseJsonString, ht]
    rw [show (jsonStringify (JsValue.obj fs)).data = '{' :: (stringifyFields fs ++ ['}'])
      from rfl]
    simp +decide [hp]
  | undef => simp [isStructured] at hs
  | jnull => simp [isStructured] at hs
  | bool b => simp [isStructured] at hs
  | num n => simp [isStructured] at hs
  | str t => simp [isStructured] at hs
  | arrayBuffer bs => simp [isStructured] at hs
  | bufferView bs => simp [isStructured] at hs

/-- Decoding the modelled JSONB blob of a value gives its canonical text. -/
theorem decodeBytes_codes (v : JsValue) :
    decodeBytes ((stringifyVal v).map Char.toNat) = jsonStringify v := by
  simp only [decodeBytes, jsonStringify, List.map_map]
  congr 1
  have : (Char.ofNat ∘ Char.toNat) = id := by
    funext c
    exact Char.ofNat_toNat c
  rw [this, List.map_id]

/-- On a structured JSON value, `maybeSerializeJson` stringifies. -/
theorem maybeSerializeJson_structured {v : JsValue} (hs : isStructured v = true) :
    maybeSerializeJson v = .str (jsonStringify v) := by
  cases v <;> simp_all [maybeSerializeJson, isStructured, isBufferLike, isNullOrUndef,
    typeofIsObject]

/-- **C2** For every structured (JSON-like) value written through the storage
boundary, serializing on write and deserializing on read is the identity.
Text path: `maybeSerializeJson` on insert/update followed by the plugin's
read-side `parseValue`/`parseJsonString` returns the original value.  JSONB
path: `serializeValue` wraps the stringified value in SQLite `jsonb()`, and
reading the stored blob back through `json()` and `JSON.parse`
(`parseFromBuffer`) recovers the original value. -/
theorem claim_C2_storage_roundtrip_identity (v : JsValue)
    (hjson : isJsonVal v = true) (hs : isStructured v = true) :
    parseValue (maybeSerializeJson v) = v ∧
    serializeValue (.valueNode v) =
      .functionNode "jsonb" [.valueNode (.str (jsonStringify v))] ∧
    (sqliteJsonb (jsonStringify v)).map parseFromBuffer = some v := by
  refine ⟨?_, ?_, ?_⟩
  · rw [maybeSerializeJson_structured hs]
    show parseJsonString (jsonStringify v) = v
    exact parseJsonString_stringify hjson hs
  · cases v <;> simp_all [serializeValue, nodeValue, isBufferLike, isNullValue,
      jsonStringifyJs, isStructured]
  · rw [sqliteJsonb, jsonParse_jsonStringify hjson]
    show some (parseFromBuffer ((stringifyVal v).map Char.toNat)) = some v
    have h1 : sqliteJsonText ((stringifyVal v).map Char.toNat)
        = some (jsonStringify v) := by
      rw [sqliteJsonText, decodeBytes_codes, jsonParse_jsonStringify hjson]
      rfl
    rw [parseFromBuffer, h1]
    simp [jsonParse_jsonStringify hjson]

theorem claim_C2_storage_roundtrip_identity_witness :
    isJsonVal (JsValue.obj [("a", .arr [.num 1, .str "x"]), ("b", .jnull)]) = true ∧
    isStructured (JsValue.obj [("a", .arr [.num 1, .str "x"]), ("b", .jnull)]) = true ∧
    (parseValue (maybeSerializeJson
        (JsValue.obj [("a", .arr [.num 1, .str "x"]), ("b", .jnull)]))
      = JsValue.obj [("a", .arr [.num 1, .str "x"]), ("b", .jnull)] ∧
    serializeValue (.valueNode
        (JsValue.obj [("a", .arr [.num 1, .str "x"]), ("b", .jnull)])) =
      .functionNode "jsonb" [.valueNode (.str (jsonStringify
        (JsValue.obj [("a", .arr [.num 1, .str "x"]), ("b", .jnull)])))] ∧
    (sqliteJsonb (jsonStringify
        (JsValue.obj [("a", .arr [.num 1, .str "x"]), ("b", .jnull)]))).map parseFromBuffer
      = some (JsValue.obj [("a", .arr [.num 1, .str "x"]), ("b", .jnull)])) :=
  ⟨rfl, rfl, claim_C2_storage_roundtrip_identity _ rfl rfl⟩

/-- **C10** For every string value read back through the `JsonPlugin`, if the
trimmed string is empty, does not start with `{`, `[` or `"`, or is not
valid JSON, then `parseJsonString` returns the input string unchanged; in
particular the read-side deserialization of string-typed column values is a
total function (`parseValue` on a string is exactly `parseJsonString`). -/
theorem claim_C10_parseJsonString_total (s : String)
    (h : (jsTrim s).data = [] ∨
      (∃ c cs, (jsTrim s).data = c :: cs ∧ c ≠ '{' ∧ c ≠ '[' ∧ c ≠ '"') ∨
      jsonParse (jsTrim s) = none) :
    parseJsonString s = .str s ∧ parseValue (.str s) = .str s := by
  have hmain : parseJsonString s = .str s := by
    unfold parseJsonString
    cases hd : (jsTrim s).data with
    | nil => simp only [hd]
    | cons c tl =>
      simp only [hd]
      by_cases hc : (c ≠ '{' && c ≠ '[' && c ≠ '"') = true
      · rw [if_pos hc]
      · rw [if_neg hc]
        rcases h with h1 | h2 | h3
        · rw [h1] at hd; cases hd
        · obtain ⟨c', cs', heq, hne1, hne2, hne3⟩ := h2
          rw [hd] at heq
          cases heq
          simp only [Bool.and_eq_true, decide_eq_true_eq] at hc
          exact absurd ⟨⟨hne1, hne2⟩, hne3⟩ hc
        · rw [h3]
  exact ⟨hmain, by show parseJsonString s = .str s; exact hmain⟩

theorem claim_C10_parseJsonString_total_witness :
    parseJsonString "hello world" = .str "hello world" ∧
    parseValue (.str "hello world") = .str "hello world" :=
  claim_C10_parseJsonString_total "hello world"
    (Or.inr (Or.inl ⟨'h', "ello world".data, rfl, by decide, by decide, by decide⟩))

/-- `serializeValue` on a literal value node, case-split on the guard. -/
theorem serializeValue_valueNode (val : JsValue) :
    serializeValue (.valueNode val) =
      if (isBufferLike val || isNullValue val) = true then .valueNode val
      else .functionNode "jsonb" [.valueNode (jsonStringifyJs val)] := by
  simp [serializeValue, nodeValue]

theorem transformPrimValues_getElem (cfg : JsonbConfig) (table : Option String)
    (columns : Option (List SqlNode)) :
    ∀ (vals : List JsValue) (start idx : Nat),
    (transformPrimValues cfg table columns start vals)[idx]? =
      vals[idx]?.map fun val =>
        if jsonbColAt cfg table (colAt columns (start + idx)) then
          serializeValue (.valueNode val)
        else .valueNode val := by
  intro vals
  induction vals with
  | nil => intro start idx; simp [transformPrimValues]
  | cons val rest ihv =>
    intro start idx
    cases idx with
    | zero => simp [transformPrimValues]
    | succ idx =>
      simp only [transformPrimValues, List.getElem?_cons_succ, ihv (start + 1) idx]
      have : start + 1 + idx = start + (idx + 1) := by omega
      rw [this]

theorem transformListValues_getElem (cfg : JsonbConfig) (table : Option String)
    (columns : Option (List SqlNode)) :
    ∀ (nodes : List SqlNode) (start idx : Nat),
    (transformListValues cfg table columns start nodes)[idx]? =
      nodes[idx]?.map fun node =>
        if jsonbColAt cfg table (colAt columns (start + idx)) then
          serializeValue node
        else node := by
  intro nodes
  induction nodes with
  | nil => intro start idx; simp [transformListValues]
  | cons node rest ihv =>
    intro start idx
    cases idx with
    | zero => simp [transformListValues]
    | succ idx =>
      simp only [transformListValues, List.getElem?_cons_succ, ihv (start + 1) idx]
      have : start + 1 + idx = start + (idx + 1) := by omega
      rw [this]

/-- **C9** In `transformValues` of the `SerializeJsonBPlugin`, only values
bound to columns listed in the `jsonbColumns` configuration for the query's
target table are wrapped in a `jsonb()` serialization; values in every
other column pass through unchanged; and even in a configured column a
value that is `null`, an `ArrayBuffer` or a typed-array view is left
unchanged (so SQL NULL stays NULL).  Stated for both the literal
(`PrimitiveValueListNode`) and the AST (`ValueListNode`) row forms. -/
theorem claim_C9_jsonb_column_scoping (cfg : JsonbConfig) (table : Option String)
    (columns : Option (List SqlNode)) (vals : List JsValue) (nodes : List SqlNode)
    (idx : Nat) (val : JsValue) :
    (vals[idx]? = some val → jsonbColAt cfg table (colAt columns idx) = false →
      (transformPrimValues cfg table columns 0 vals)[idx]? = some (.valueNode val)) ∧
    (vals[idx]? = some val → jsonbColAt cfg table (colAt columns idx) = true →
      (isBufferLike val || isNullValue val) = true →
      (transformPrimValues cfg table columns 0 vals)[idx]? = some (.valueNode val)) ∧
    (vals[idx]? = some val → jsonbColAt cfg table (colAt columns idx) = true →
      (isBufferLike val || isNullValue val) = false →
      (transformPrimValues cfg table columns 0 vals)[idx]? =
        some (.functionNode "jsonb" [.valueNode (jsonStringifyJs val)])) ∧
    (nodes[idx]? = some (.valueNode val) →
      jsonbColAt cfg table (colAt columns idx) = false →
      (transformListValues cfg table columns 0 nodes)[idx]? = some (.valueNode val)) ∧
    (nodes[idx]? = some (.valueNode val) →
      jsonbColAt cfg table (colAt columns idx) = true →
      (isBufferLike val || isNullValue val) = true →
      (transformListValues cfg table columns 0 nodes)[idx]? = some (.valueNode val)) ∧
    (nodes[idx]? = some (.valueNode val) →
      jsonbColAt cfg table (colAt columns idx) = true →
      (isBufferLike val || isNullValue val) = false →
      (transformListValues cfg table columns 0 nodes)[idx]? =
        some (.functionNode "jsonb" [.valueNode (jsonStringifyJs val)])) := by
  have hp := transformPrimValues_getElem cfg table columns vals 0 idx
  have hl := transformListValues_getElem cfg table columns nodes 0 idx
  simp only [Nat.zero_add] at hp hl
  refine ⟨?_, ?_, ?_, ?_, ?_, ?_⟩
  · intro hv hcol
    rw [hp, hv]
    simp [hcol]
  · intro hv hcol hguard
    rw [hp, hv, Option.map_some', if_pos hcol, serializeValue_valueNode, hguard]
    simp
  · intro hv hcol hguard
    rw [hp, hv, Option.map_some', if_pos hcol, serializeValue_valueNode, hguard]
    simp
  · intro hv hcol
    rw [hl, hv]
    simp [hcol]
  · intro hv hcol hguard
    rw [hl, hv, Option.map_some', if_pos hcol, serializeValue_valueNode, hguard]
    simp
  · intro hv hcol hguard
    rw [hl, hv, Option.map_some', if_pos hcol, serializeValue_valueNode, hguard]
    simp

theorem claim_C9_jsonb_column_scoping_witness :
    (transformPrimValues [("key_value", ["value"])] (some "key_value")
        (some [.columnNode "value", .columnNode "other"]) 0
        [JsValue.obj [("a", .num 1)], JsValue.str "plain"])[0]?
      = some (.functionNode "jsonb" [.valueNode (.str "\x7b\"a\":1\x7d")]) ∧
    (transformPrimValues [("key_value", ["value"])] (some "key_value")
        (some [.columnNode "value", .columnNode "other"]) 0
        [JsValue.obj [("a", .num 1)], JsValue.str "plain"])[1]?
      = some (.valueNode (.str "plain")) ∧
    (transformPrimValues [("key_value", ["value"])] (some "key_value")
        (some [.columnNode "value", .columnNode "other"]) 0
        [JsValue.jnull, JsValue.str "plain"])[0]?
      = some (.valueNode .jnull) := by
  refine ⟨?_, ?_, ?_⟩
  · exact (claim_C9_jsonb_column_scoping [("key_value", ["value"])] (some "key_value")
      (some [.columnNode "value", .columnNode "other"])
      [JsValue.obj [("a", .num 1)], JsValue.str "plain"] [] 0
      (JsValue.obj [("a", .num 1)])).2.2.1 rfl rfl rfl
  · exact (claim_C9_jsonb_column_scoping [("key_value", ["value"])] (some "key_value")
      (some [.columnNode "value", .columnNode "other"])
      [JsValue.obj [("a", .num 1)], JsValue.str "plain"] [] 1
      (JsValue.str "plain")).1 rfl rfl
  · exact (claim_C9_jsonb_column_scoping [("key_value", ["value"])] (some "key_value")
      (some [.columnNode "value", .columnNode "other"])
      [JsValue.jnull, JsValue.str "plain"] [] 0 JsValue.jnull).2.1 rfl rfl rfl

/-! ## Lemmas: list scans under appends, filters and maps -/

theorem find?_append_none {α} {p : α → Bool} {l1 : List α} (l2 : List α)
    (h : l1.find? p = none) : (l1 ++ l2).find? p = l2.find? p := by
  induction l1 with
  | nil => simp
  | cons a l ih1 =>
    rw [List.find?_cons] at h
    rw [List.cons_append, List.find?_cons]
    split at h
    · cases h
    · exact ih1 h

theorem find?_append_some {α} {p : α → Bool} {l1 : List α} (l2 : List α) {x : α}
    (h : l1.find? p = some x) : (l1 ++ l2).find? p = some x := by
  induction l1 with
  | nil => cases h
  | cons a l ih1 =>
    rw [List.find?_cons] at h
    rw [List.cons_append, List.find?_cons]
    split at h
    · simp_all
    · exact ih1 h

theorem find?_filter_of_imp {α} {p q : α → Bool} (l : List α)
    (h : ∀ a, p a = true → q a = true) : (l.filter q).find? p = l.find? p := by
  induction l with
  | nil => rfl
  | cons a l ih1 =>
    by_cases hq : q a = true
    · rw [List.filter_cons_of_pos hq, List.find?_cons, List.find?_cons]
      split
      · rfl
      · exact ih1
    · have hp : p a = false := by
        cases hpa : p a
        · rfl
        · exact absurd (h a hpa) hq
      rw [List.filter_cons_of_neg (by simp [hq]), List.find?_cons, hp]
      simpa using ih1

theorem find?_filter_none {α} {p q : α → Bool} (l : List α)
    (h : ∀ a, p a = true → q a = false) : (l.filter q).find? p = none := by
  rw [List.find?_eq_none]
  intro a ha
  have hq : q a = true := (List.mem_filter.mp ha).2
  intro hp
  rw [h a hp] at hq
  cases hq

theorem filter_beq_nil {α} (f : α → Nat) (l : List α) (n : Nat)
    (h : ∀ a ∈ l, f a ≠ n) : (l.filter fun a => f a == n) = [] := by
  induction l with
  | nil => rfl
  | cons a l ih1 =>
    rw [List.filter_cons_of_neg (by simpa using h a (by simp))]
    exact ih1 fun x hx => h x (by simp [hx])

/-- **C4** `createChangeSet` with an empty `elements` list succeeds and
produces zero `change_set_element` rows for the new set; with elements
referencing changes `c1, c2` it produces exactly the two membership rows,
each carrying the `entity_id`, `schema_key` and `file_id` of the referenced
change. -/
theorem claim_C4_createChangeSet_element_rows (s : LixState) (hw : idsBelow s)
    (r1 r2 : ChangeSetElementRef) (c1 c2 : Change)
    (hc1 : c1 ∈ s.changes) (hc2 : c2 ∈ s.changes)
    (hr1 : r1 = { change_id := c1.id, entity_id := c1.entity_id,
                  schema_key := c1.schema_key, file_id := c1.file_id })
    (hr2 : r2 = { change_id := c2.id, entity_id := c2.entity_id,
                  schema_key := c2.schema_key, file_id := c2.file_id }) :
    ((createChangeSet s { elements := [] }).1.change_set_elements.filter
      fun e => e.change_set_id == (createChangeSet s { elements := [] }).2) = [] ∧
    ((createChangeSet s { elements := [r1, r2] }).1.change_set_elements.filter
      fun e => e.change_set_id == (createChangeSet s { elements := [r1, r2] }).2) =
      [{ change_set_id := (createChangeSet s { elements := [r1, r2] }).2,
         change_id := c1.id, entity_id := c1.entity_id,
         schema_key := c1.schema_key, file_id := c1.file_id },
       { change_set_id := (createChangeSet s { elements := [r1, r2] }).2,
         change_id := c2.id, entity_id := c2.entity_id,
         schema_key := c2.schema_key, file_id := c2.file_id }] := by
  have hold : (s.change_set_elements.filter fun e => e.change_set_id == s.next_id) = [] :=
    filter_beq_nil _ _ _ fun e he => Nat.ne_of_lt (hw.2.1 e he)
  constructor
  · simp [createChangeSet, List.filter_append, hold]
  · subst hr1 hr2
    simp [createChangeSet, List.filter_append, hold, elementRowFor]

/-- **C5** `createChangeSet` with two distinct parents produces exactly two
`change_set_edge` rows, both with `child_id` equal to the new change set's
id, whose `parent_id` values cover the two listed parents (one edge row per
parent). -/
theorem claim_C5_createChangeSet_parent_edges (s : LixState) (hw : idsBelow s)
    (p1 p2 : Nat) (hne : p1 ≠ p2) :
    ((createChangeSet s { parents := [p1, p2] }).1.change_set_edges.filter
      fun e => e.child_id == (createChangeSet s { parents := [p1, p2] }).2) =
      [{ parent_id := p1, child_id := (createChangeSet s { parents := [p1, p2] }).2 },
       { parent_id := p2, child_id := (createChangeSet s { parents := [p1, p2] }).2 }] ∧
    ((createChangeSet s { parents := [p1, p2] }).1.change_set_edges.filter
      fun e => e.child_id == (createChangeSet s { parents := [p1, p2] }).2).length = 2 ∧
    (∀ e ∈ (createChangeSet s { parents := [p1, p2] }).1.change_set_edges.filter
        fun e => e.child_id == (createChangeSet s { parents := [p1, p2] }).2,
      e.child_id = (createChangeSet s { parents := [p1, p2] }).2 ∧
        (e.parent_id = p1 ∨ e.parent_id = p2)) ∧
    (∀ q, (q = p1 ∨ q = p2) →
      ∃ e ∈ (createChangeSet s { parents := [p1, p2] }).1.change_set_edges.filter
          fun e => e.child_id == (createChangeSet s { parents := [p1, p2] }).2,
        e.parent_id = q) := by
  have hold : (s.change_set_edges.filter fun e => e.child_id == s.next_id) = [] :=
    filter_beq_nil _ _ _ fun e he => Nat.ne_of_lt (hw.2.2.1 e he)
  have hmain : ((createChangeSet s { parents := [p1, p2] }).1.change_set_edges.filter
      fun e => e.child_id == (createChangeSet s { parents := [p1, p2] }).2) =
      [{ parent_id := p1, child_id := s.next_id },
       { parent_id := p2, child_id := s.next_id }] := by
    simp [createChangeSet, List.filter_append, hold]
  refine ⟨hmain, ?_, ?_, ?_⟩
  · rw [hmain]; rfl
  · rw [hmain]
    intro e he
    simp only [List.mem_cons, List.not_mem_nil, or_false] at he
    rcases he with rfl | rfl
    · exact ⟨rfl, Or.inl rfl⟩
    · exact ⟨rfl, Or.inr rfl⟩
  · intro q hq
    rw [hmain]
    cases hq with
    | inl h => exact ⟨{ parent_id := p1, child_id := s.next_id }, by simp, by rw [h]⟩
    | inr h => exact ⟨{ parent_id := p2, child_id := s.next_id }, by simp, by rw [h]⟩


theorem claim_C4_createChangeSet_element_rows_witness :
    idsBelow wStateC4 ∧ wChange1 ∈ wStateC4.changes ∧ wChange2 ∈ wStateC4.changes ∧
    ((createChangeSet wStateC4 { elements := [] }).1.change_set_elements.filter
      fun e => e.change_set_id == (createChangeSet wStateC4 { elements := [] }).2) = [] ∧
    ((createChangeSet wStateC4 { elements := [wRef1, wRef2] }).1.change_set_elements.filter
      fun e => e.change_set_id == (createChangeSet wStateC4 { elements := [wRef1, wRef2] }).2) =
      [{ change_set_id := (createChangeSet wStateC4 { elements := [wRef1, wRef2] }).2,
         change_id := wChange1.id, entity_id := wChange1.entity_id,
         schema_key := wChange1.schema_key, file_id := wChange1.file_id },
       { change_set_id := (createChangeSet wStateC4 { elements := [wRef1, wRef2] }).2,
         change_id := wChange2.id, entity_id := wChange2.entity_id,
         schema_key := wChange2.schema_key, file_id := wChange2.file_id }] :=
  ⟨by unfold idsBelow; decide, by decide, by decide,
   (claim_C4_createChangeSet_element_rows wStateC4 (by unfold idsBelow; decide)
     wRef1 wRef2 wChange1 wChange2 (by decide) (by decide) rfl rfl).1,
   (claim_C4_createChangeSet_element_rows wStateC4 (by unfold idsBelow; decide)
     wRef1 wRef2 wChange1 wChange2 (by decide) (by decide) rfl rfl).2⟩

theorem claim_C5_createChangeSet_parent_edges_witness :
    idsBelow wStateC5 ∧ (0 : Nat) ≠ 1 ∧
    ((createChangeSet wStateC5 { parents := [0, 1] }).1.change_set_edges.filter
      fun e => e.child_id == (createChangeSet wStateC5 { parents := [0, 1] }).2) =
      [{ parent_id := 0, child_id := (createChangeSet wStateC5 { parents := [0, 1] }).2 },
       { parent_id := 1, child_id := (createChangeSet wStateC5 { parents := [0, 1] }).2 }] ∧
    ((createChangeSet wStateC5 { parents := [0, 1] }).1.change_set_edges.filter
      fun e => e.child_id == (createChangeSet wStateC5 { parents := [0, 1] }).2).length = 2 :=
  ⟨by unfold idsBelow; decide, by decide,
   (claim_C5_createChangeSet_parent_edges wStateC5 (by unfold idsBelow; decide)
     0 1 (by decide)).1,
   (claim_C5_createChangeSet_parent_edges wStateC5 (by unfold idsBelow; decide)
     0 1 (by decide)).2.1⟩

/-! ## Lemmas: effect shapes of the modelled operations -/

theorem addChangesToSet_ok_shape {s : LixState} {csId : Nat}
    {refs : List ChangeSetElementRef} {t : LixState}
    (h : addChangesToSet s csId refs = .ok t) :
    t.change_sets = s.change_sets ∧ t.next_id = s.next_id ∧
    t.proposals = s.proposals := by
  unfold addChangesToSet at h
  split at h
  · exact Except.noConfusion h
  · split at h
    · exact Except.noConfusion h
    · injection h with h
      subst h
      exact ⟨rfl, rfl, rfl⟩

theorem createVersion_ok_shape {s : LixState} {fromVersionId : Nat}
    {name : Option String} {pr : LixState × Nat}
    (h : createVersion s fromVersionId name = .ok pr) :
    pr.1.change_sets = s.change_sets ++ [{ id := s.next_id, immutable_elements := false }] ∧
    pr.1.next_id = s.next_id + 2 ∧ pr.1.proposals = s.proposals := by
  unfold createVersion at h
  split at h
  · exact Except.noConfusion h
  · split at h
    · exact Except.noConfusion h
    · injection h with h
      subst h
      exact ⟨rfl, rfl, rfl⟩

theorem createChangeProposal_ok_shape {s : LixState} {sourceId targetId : Nat}
    {pr : LixState × Nat}
    (h : createChangeProposal s sourceId targetId = .ok pr) :
    pr.1.change_sets = s.change_sets ∧ pr.1.next_id = s.next_id + 1 ∧
    pr.1.proposals = s.proposals ++
      [{ id := s.next_id, source_version_id := sourceId,
         target_version_id := targetId, status := .open' }] := by
  unfold createChangeProposal at h
  split at h
  · exact Except.noConfusion h
  · split at h
    · injection h with h
      subst h
      exact ⟨rfl, rfl, rfl⟩
    · exact Except.noConfusion h

theorem acceptChangeProposal_ok_shape {s : LixState} {pId : Nat} {t : LixState}
    (h : acceptChangeProposal s pId = .ok t) :
    ∃ p, (s.proposals.find? fun q => q.id == pId) = some p ∧ p.status = .open' ∧
      t.change_sets = s.change_sets ++ [{ id := s.next_id, immutable_elements := true }] ∧
      t.next_id = s.next_id + 1 ∧
      t.proposals = s.proposals.map fun q =>
        if q.id = pId then { q with status := .accepted } else q := by
  unfold acceptChangeProposal at h
  split at h
  · exact Except.noConfusion h
  · split at h
    · exact Except.noConfusion h
    · split at h
      · injection h with h
        subst h
        refine ⟨_, by assumption, by simp_all, rfl, rfl, rfl⟩
      · exact Except.noConfusion h

theorem rejectChangeProposal_ok_shape {s : LixState} {pId : Nat} {t : LixState}
    (h : rejectChangeProposal s pId = .ok t) :
    ∃ p src, (s.proposals.find? fun q => q.id == pId) = some p ∧ p.status = .open' ∧
      (s.versions.find? fun v => v.id == p.source_version_id) = some src ∧
      t.change_sets = (s.change_sets.filter fun cs => cs.id ≠ src.working_change_set_id) ∧
      t.next_id = s.next_id ∧
      t.proposals = (s.proposals.map fun q =>
        if q.id = pId then { q with status := .rejected } else q) := by
  unfold rejectChangeProposal at h
  split at h
  · exact Except.noConfusion h
  · split at h
    · exact Except.noConfusion h
    · split at h
      · exact Except.noConfusion h
      · injection h with h
        subst h
        refine ⟨_, _, by assumption, by simp_all, by assumption, rfl, rfl, rfl⟩

/-! ## Lemmas: immutability is decided at creation and never changes (C3) -/

theorem applyOp_immut_invariant (csId : Nat) (op : LixOp) (s : LixState)
    (h1 : csId < s.next_id)
    (h2 : ∀ cs ∈ s.change_sets, cs.id = csId → cs.immutable_elements = true) :
    csId < (applyOp s op).next_id ∧
    ∀ cs ∈ (applyOp s op).change_sets, cs.id = csId → cs.immutable_elements = true := by
  cases op with
  | createChangeSet args =>
    refine ⟨Nat.lt_succ_of_lt h1, ?_⟩
    intro cs hcs hid
    simp only [applyOp, createChangeSet, List.mem_append, List.mem_singleton] at hcs
    rcases hcs with h | h
    · exact h2 cs h hid
    · subst h
      simp at hid
      omega
  | addChangesToSet c refs =>
    simp only [applyOp]
    cases hE : addChangesToSet s c refs with
    | error e => exact ⟨h1, h2⟩
    | ok t =>
      change csId < t.next_id ∧
        ∀ cs ∈ t.change_sets, cs.id = csId → cs.immutable_elements = true
      obtain ⟨hcs, hnid, -⟩ := addChangesToSet_ok_shape hE
      rw [hcs, hnid]
      exact ⟨h1, h2⟩
  | createVersion f n =>
    simp only [applyOp]
    cases hE : createVersion s f n with
    | error e => exact ⟨h1, h2⟩
    | ok pr =>
      change csId < pr.1.next_id ∧
        ∀ cs ∈ pr.1.change_sets, cs.id = csId → cs.immutable_elements = true
      obtain ⟨hcs, hnid, -⟩ := createVersion_ok_shape hE
      rw [hcs, hnid]
      refine ⟨by omega, ?_⟩
      intro cs hcs2 hid
      rcases List.mem_append.mp hcs2 with h | h
      · exact h2 cs h hid
      · rw [List.mem_singleton] at h
        subst h
        simp at hid
        omega
  | createChangeProposal a b =>
    simp only [applyOp]
    cases hE : createChangeProposal s a b with
    | error e => exact ⟨h1, h2⟩
    | ok pr =>
      change csId < pr.1.next_id ∧
        ∀ cs ∈ pr.1.change_sets, cs.id = csId → cs.immutable_elements = true
      obtain ⟨hcs, hnid, -⟩ := createChangeProposal_ok_shape hE
      rw [hcs, hnid]
      exact ⟨Nat.lt_succ_of_lt h1, h2⟩
  | acceptChangeProposal pId =>
    simp only [applyOp]
    cases hE : acceptChangeProposal s pId with
    | error e => exact ⟨h1, h2⟩
    | ok t =>
      change csId < t.next_id ∧
        ∀ cs ∈ t.change_sets, cs.id = csId → cs.immutable_elements = true
      obtain ⟨p, -, -, hcs, hnid, -⟩ := acceptChangeProposal_ok_shape hE
      rw [hcs, hnid]
      refine ⟨Nat.lt_succ_of_lt h1, ?_⟩
      intro cs hcs2 hid
      rcases List.mem_append.mp hcs2 with h | h
      · exact h2 cs h hid
      · rw [List.mem_singleton] at h
        subst h
        rfl
  | rejectChangeProposal pId =>
    simp only [applyOp]
    cases hE : rejectChangeProposal s pId with
    | error e => exact ⟨h1, h2⟩
    | ok t =>
      change csId < t.next_id ∧
        ∀ cs ∈ t.change_sets, cs.id = csId → cs.immutable_elements = true
      obtain ⟨p, src, -, -, -, hcs, hnid, -⟩ := rejectChangeProposal_ok_shape hE
      rw [hcs, hnid]
      refine ⟨h1, ?_⟩
      intro cs hcs2 hid
      exact h2 cs (List.mem_filter.mp hcs2).1 hid

theorem applyOps_immut_invariant (csId : Nat) (ops : List LixOp) : ∀ (s : LixState),
    csId < s.next_id →
    (∀ cs ∈ s.change_sets, cs.id = csId → cs.immutable_elements = true) →
    csId < (applyOps s ops).next_id ∧
    ∀ cs ∈ (applyOps s ops).change_sets, cs.id = csId → cs.immutable_elements = true := by
  induction ops with
  | nil => intro s h1 h2; exact ⟨h1, h2⟩
  | cons op ops ih =>
    intro s h1 h2
    have hstep := applyOp_immut_invariant csId op s h1 h2
    exact ih (applyOp s op) hstep.1 hstep.2

/-- **C3** A change set created with `immutableElements := true` rejects a
subsequent `addChangesToSet` with `FrozenChangeSetError`, and after any
sequence of further operations every fetched row of that change set shows
`immutable_elements` true — there is no observable window in which it is
false, and no later operation can ever add elements to the set. -/
theorem claim_C3_immutable_change_sets (s : LixState) (hw : idsBelow s)
    (args : CreateChangeSetArgs) (himm : args.immutableElements = true) :
    (∀ refs, addChangesToSet (createChangeSet s args).1 (createChangeSet s args).2 refs =
      .error .frozenChangeSet) ∧
    (∀ ops, ∀ cs ∈ (applyOps (createChangeSet s args).1 ops).change_sets,
      cs.id = (createChangeSet s args).2 → cs.immutable_elements = true) ∧
    (∀ ops refs t, addChangesToSet (applyOps (createChangeSet s args).1 ops)
      (createChangeSet s args).2 refs ≠ .ok t) := by
  have hfnone : (s.change_sets.find? fun cs => cs.id == s.next_id) = none := by
    rw [List.find?_eq_none]
    intro cs hcs
    simpa using Nat.ne_of_lt (hw.1 cs hcs)
  have h1 : (createChangeSet s args).2 < (createChangeSet s args).1.next_id :=
    Nat.lt_succ_self s.next_id
  have h2 : ∀ cs ∈ (createChangeSet s args).1.change_sets,
      cs.id = (createChangeSet s args).2 → cs.immutable_elements = true := by
    intro cs hcs hid
    simp only [createChangeSet, List.mem_append, List.mem_singleton] at hcs
    rcases hcs with h | h
    · exact absurd hid (Nat.ne_of_lt (hw.1 cs h))
    · subst h
      exact himm
  refine ⟨?_, ?_, ?_⟩
  · intro refs
    unfold addChangesToSet
    have hfind : (createChangeSet s args).1.change_sets.find?
        (fun cs => cs.id == (createChangeSet s args).2) =
        some { id := s.next_id, immutable_elements := args.immutableElements } := by
      show ((s.change_sets ++
        [({ id := s.next_id, immutable_elements := args.immutableElements } :
          ChangeSetRow)]).find?
          fun cs => cs.id == s.next_id) = _
      rw [find?_append_none _ hfnone]
      simp
    rw [hfind]
    simp [himm]
  · intro ops
    exact (applyOps_immut_invariant _ ops _ h1 h2).2
  · intro ops refs t hok
    unfold addChangesToSet at hok
    split at hok
    · exact Except.noConfusion hok
    · rename_i cs hfind
      split at hok
      · exact Except.noConfusion hok
      · rename_i himmf
        have hmem := List.mem_of_find?_eq_some hfind
        have hid : cs.id = (createChangeSet s args).2 := by
          simpa using List.find?_some hfind
        exact himmf ((applyOps_immut_invariant _ ops _ h1 h2).2 cs hmem hid)

theorem claim_C3_immutable_change_sets_witness :
    idsBelow wEmptyState ∧
    (CreateChangeSetArgs.mk [] [] true).immutableElements = true ∧
    addChangesToSet (createChangeSet wEmptyState (CreateChangeSetArgs.mk [] [] true)).1
      (createChangeSet wEmptyState (CreateChangeSetArgs.mk [] [] true)).2 [wRef1] =
      .error .frozenChangeSet :=
  ⟨by unfold idsBelow; decide, rfl,
   (claim_C3_immutable_change_sets wEmptyState (by unfold idsBelow; decide)
     (CreateChangeSetArgs.mk [] [] true) rfl).1 [wRef1]⟩

/-! ## Lemmas: terminal proposal states stay terminal (C8) -/

theorem mapped_status_invariant (pId pId' : Nat) (st newSt : ProposalStatus)
    (hst : st ≠ .open') (props : List ProposalRow) (p : ProposalRow)
    (hfindp : (props.find? fun q => q.id == pId') = some p)
    (hopenp : p.status = .open')
    (h2 : ∀ q ∈ props, q.id = pId → q.status = st) :
    ∀ q ∈ props.map fun q => if q.id = pId' then { q with status := newSt } else q,
      q.id = pId → q.status = st := by
  intro q hq hid
  rw [List.mem_map] at hq
  obtain ⟨r, hr, hfr⟩ := hq
  have hfid : (if r.id = pId' then { r with status := newSt } else r).id = r.id := by
    split <;> rfl
  have hid' : r.id = pId := by
    rw [← hfr] at hid
    rw [hfid] at hid
    exact hid
  by_cases hc : r.id = pId'
  · exfalso
    have hp_id : p.id = pId' := by simpa using List.find?_some hfindp
    have hp_st : p.status = st :=
      h2 p (List.mem_of_find?_eq_some hfindp) (by omega)
    rw [hopenp] at hp_st
    exact hst hp_st.symm
  · rw [← hfr, if_neg hc]
    exact h2 r hr hid'

theorem applyOp_proposal_status_invariant (pId : Nat) (st : ProposalStatus)
    (hst : st ≠ .open') (op : LixOp) (s : LixState)
    (h1 : pId < s.next_id)
    (h2 : ∀ q ∈ s.proposals, q.id = pId → q.status = st) :
    pId < (applyOp s op).next_id ∧
    ∀ q ∈ (applyOp s op).proposals, q.id = pId → q.status = st := by
  cases op with
  | createChangeSet args => exact ⟨Nat.lt_succ_of_lt h1, h2⟩
  | addChangesToSet c refs =>
    simp only [applyOp]
    cases hE : addChangesToSet s c refs with
    | error e => exact ⟨h1, h2⟩
    | ok t =>
      change pId < t.next_id ∧ ∀ q ∈ t.proposals, q.id = pId → q.status = st
      obtain ⟨-, hnid, hprops⟩ := addChangesToSet_ok_shape hE
      rw [hnid, hprops]
      exact ⟨h1, h2⟩
  | createVersion f n =>
    simp only [applyOp]
    cases hE : createVersion s f n with
    | error e => exact ⟨h1, h2⟩
    | ok pr =>
      change pId < pr.1.next_id ∧ ∀ q ∈ pr.1.proposals, q.id = pId → q.status = st
      obtain ⟨-, hnid, hprops⟩ := createVersion_ok_shape hE
      rw [hnid, hprops]
      exact ⟨by omega, h2⟩
  | createChangeProposal a b =>
    simp only [applyOp]
    cases hE : createChangeProposal s a b with
    | error e => exact ⟨h1, h2⟩
    | ok pr =>
      change pId < pr.1.next_id ∧ ∀ q ∈ pr.1.proposals, q.id = pId → q.status = st
      obtain ⟨-, hnid, hprops⟩ := createChangeProposal_ok_shape hE
      rw [hnid, hprops]
      refine ⟨Nat.lt_succ_of_lt h1, ?_⟩
      intro q hq hid
      rcases List.mem_append.mp hq with h | h
      · exact h2 q h hid
      · rw [List.mem_singleton] at h
        subst h
        simp at hid
        omega
  | acceptChangeProposal pId' =>
    simp only [applyOp]
    cases hE : acceptChangeProposal s pId' with
    | error e => exact ⟨h1, h2⟩
    | ok t =>
      change pId < t.next_id ∧ ∀ q ∈ t.proposals, q.id = pId → q.status = st
      obtain ⟨p, hfindp, hopenp, -, hnid, hprops⟩ := acceptChangeProposal_ok_shape hE
      rw [hnid, hprops]
      exact ⟨Nat.lt_succ_of_lt h1,
        mapped_status_invariant pId pId' st _ hst s.proposals p hfindp hopenp h2⟩
  | rejectChangeProposal pId' =>
    simp only [applyOp]
    cases hE : rejectChangeProposal s pId' with
    | error e => exact ⟨h1, h2⟩
    | ok t =>
      change pId < t.next_id ∧ ∀ q ∈ t.proposals, q.id = pId → q.status = st
      obtain ⟨p, src, hfindp, hopenp, -, -, hnid, hprops⟩ := rejectChangeProposal_ok_shape hE
      rw [hnid, hprops]
      exact ⟨h1,
        mapped_status_invariant pId pId' st _ hst s.proposals p hfindp hopenp h2⟩

theorem applyOps_proposal_status_invariant (pId : Nat) (st : ProposalStatus)
    (hst : st ≠ .open') (ops : List LixOp) : ∀ (s : LixState),
    pId < s.next_id →
    (∀ q ∈ s.proposals, q.id = pId → q.status = st) →
    pId < (applyOps s ops).next_id ∧
    ∀ q ∈ (applyOps s ops).proposals, q.id = pId → q.status = st := by
  induction ops with
  | nil => intro s h1 h2; exact ⟨h1, h2⟩
  | cons op ops ih =>
    intro s h1 h2
    have hstep := applyOp_proposal_status_invariant pId st hst op s h1 h2
    exact ih (applyOp s op) hstep.1 hstep.2

/-- **C8** On a proposal whose status is not `open` (accepted or rejected),
`acceptChangeProposal` and `rejectChangeProposal` both fail with
`InvalidProposalStateError`, and no sequence of operations ever changes the
proposal's status again: the state machine has no transition out of a
terminal state. -/
theorem claim_C8_terminal_proposal_states (s : LixState) (hw : idsBelow s)
    (p : ProposalRow)
    (hfind : (s.proposals.find? fun q => q.id == p.id) = some p)
    (hkey : ∀ q ∈ s.proposals, q.id = p.id → q.status = p.status)
    (hterm : p.status ≠ .open') :
    acceptChangeProposal s p.id = .error .invalidProposalState ∧
    rejectChangeProposal s p.id = .error .invalidProposalState ∧
    ∀ ops, ∀ q ∈ (applyOps s ops).proposals, q.id = p.id → q.status = p.status := by
  have h1 : p.id < s.next_id := hw.2.2.2.2 p (List.mem_of_find?_eq_some hfind)
  refine ⟨?_, ?_, ?_⟩
  · unfold acceptChangeProposal
    rw [hfind]
    exact if_pos hterm
  · unfold rejectChangeProposal
    rw [hfind]
    exact if_pos hterm
  · intro ops
    exact (applyOps_proposal_status_invariant p.id p.status hterm ops s h1 hkey).2

theorem claim_C8_terminal_proposal_states_witness :
    idsBelow wStateC8 ∧
    (wStateC8.proposals.find? fun q => q.id == wProp.id) = some wProp ∧
    (∀ q ∈ wStateC8.proposals, q.id = wProp.id → q.status = wProp.status) ∧
    wProp.status ≠ .open' ∧
    acceptChangeProposal wStateC8 wProp.id = .error .invalidProposalState ∧
    rejectChangeProposal wStateC8 wProp.id = .error .invalidProposalState :=
  ⟨by unfold idsBelow; decide, by decide, by decide, by decide,
   (claim_C8_terminal_proposal_states wStateC8 (by unfold idsBelow; decide) wProp
     (by decide) (by decide) (by decide)).1,
   (claim_C8_terminal_proposal_states wStateC8 (by unfold idsBelow; decide) wProp
     (by decide) (by decide) (by decide)).2.1⟩

/-! ## Lemmas: rejecting a proposal (C1) -/

theorem find?_map_of_pred_preserved {α} (f : α → α) (p : α → Bool)
    (hf : ∀ a, p (f a) = p a) : ∀ (l : List α) (x : α),
    l.find? p = some x → (l.map f).find? p = some (f x) := by
  intro l
  induction l with
  | nil => intro x h; cases h
  | cons a l ih =>
    intro x h
    cases hpa : p a with
    | true =>
      rw [List.find?_cons_of_pos _ hpa] at h
      injection h with h
      subst h
      rw [List.map_cons, List.find?_cons_of_pos _ (by rw [hf]; exact hpa)]
    | false =>
      rw [List.find?_cons_of_neg _ (by simp [hpa])] at h
      rw [List.map_cons, List.find?_cons_of_neg _ (by simp [hf, hpa])]
      exact ih x h

theorem rejectChangeProposal_eq_of_find (s : LixState) (pId : Nat) (p : ProposalRow)
    (hfindP : (s.proposals.find? fun q => q.id == pId) = some p) :
    rejectChangeProposal s pId =
      if p.status ≠ ProposalStatus.open' then .error .invalidProposalState
      else
        match s.versions.find? fun v => v.id == p.source_version_id with
        | none => .error .danglingReference
        | some src =>
          .ok { s with
            versions := s.versions.filter fun v => v.id ≠ src.id,
            change_sets := s.change_sets.filter fun cs =>
              cs.id ≠ src.working_change_set_id,
            change_set_elements := s.change_set_elements.filter fun e =>
              e.change_set_id ≠ src.working_change_set_id,
            proposals := s.proposals.map fun q =>
              if q.id = pId then { q with status := .rejected } else q } := by
  unfold rejectChangeProposal
  rw [hfindP]

/-- **C1** After `rejectChangeProposal` on an open proposal from source
version `src` to target version `tgt`: the source version row no longer
exists, the target version row (hence its `change_set_id`) is exactly as
before the call, the proposal's status is `rejected`, the history edges are
untouched, and no file invisible under the target before the call (such as a
file existing only in the source's history) becomes visible under it. -/
theorem claim_C1_rejectChangeProposal_frame (s : LixState)
    (p : ProposalRow) (src tgt : VersionRow)
    (hfindP : (s.proposals.find? fun q => q.id == p.id) = some p)
    (hopen : p.status = .open')
    (hsrc : (s.versions.find? fun v => v.id == p.source_version_id) = some src)
    (htgt : (s.versions.find? fun v => v.id == p.target_version_id) = some tgt)
    (hne : tgt.id ≠ src.id) :
    ∃ t, rejectChangeProposal s p.id = .ok t ∧
      (t.versions.find? fun v => v.id == p.source_version_id) = none ∧
      (t.versions.find? fun v => v.id == p.target_version_id) = some tgt ∧
      (t.proposals.find? fun q => q.id == p.id) =
        some { p with status := .rejected } ∧
      t.change_set_edges = s.change_set_edges ∧
      ∀ fileId, fileVisible s tgt fileId = false → fileVisible t tgt fileId = false := by
  have hsrcid : src.id = p.source_version_id := by simpa using List.find?_some hsrc
  have htgtid : tgt.id = p.target_version_id := by simpa using List.find?_some htgt
  have hcond : ¬ (p.status ≠ ProposalStatus.open') := fun h => h hopen
  refine ⟨{ s with
      versions := s.versions.filter fun v => v.id ≠ src.id,
      change_sets := s.change_sets.filter fun cs => cs.id ≠ src.working_change_set_id,
      change_set_elements := s.change_set_elements.filter fun e =>
        e.change_set_id ≠ src.working_change_set_id,
      proposals := s.proposals.map fun q =>
        if q.id = p.id then { q with status := ProposalStatus.rejected } else q },
    ?_, ?_, ?_, ?_, rfl, ?_⟩
  · rw [rejectChangeProposal_eq_of_find s p.id p hfindP, if_neg hcond, hsrc]
  · show ((s.versions.filter fun v => v.id ≠ src.id).find?
      fun v => v.id == p.source_version_id) = none
    refine find?_filter_none _ ?_
    intro a ha
    simp only [beq_iff_eq] at ha
    simp only [ne_eq, decide_eq_false_iff_not, not_not]
    omega
  · show ((s.versions.filter fun v => v.id ≠ src.id).find?
      fun v => v.id == p.target_version_id) = some tgt
    rw [find?_filter_of_imp]
    · exact htgt
    · intro a ha
      simp only [beq_iff_eq] at ha
      simp only [ne_eq, decide_eq_true_eq]
      omega
  · show ((s.proposals.map fun q =>
      if q.id = p.id then { q with status := ProposalStatus.rejected } else q).find?
        fun q => q.id == p.id) = some { p with status := ProposalStatus.rejected }
    have hmap := find?_map_of_pred_preserved
      (fun q => if q.id = p.id then { q with status := ProposalStatus.rejected } else q)
      (fun q => q.id == p.id) (fun a => by beta_reduce; split <;> rfl) s.proposals p hfindP
    rw [hmap]
    simp
  · intro fileId hvis
    rw [Bool.eq_false_iff]
    intro htrue
    simp only [fileVisible, List.any_eq_true] at htrue
    obtain ⟨e, he, hpe⟩ := htrue
    have he' : e ∈ s.change_set_elements := (List.mem_filter.mp he).1
    have hs : fileVisible s tgt fileId = true := by
      simp only [fileVisible, List.any_eq_true]
      exact ⟨e, he', hpe⟩
    rw [hvis] at hs
    exact Bool.false_ne_true hs

theorem claim_C1_rejectChangeProposal_frame_witness :
    ((wStateC1.proposals.find? fun q => q.id == wPropC1.id) = some wPropC1) ∧
    wPropC1.status = .open' ∧
    ((wStateC1.versions.find? fun v => v.id == wPropC1.source_version_id) = some wSrc) ∧
    ((wStateC1.versions.find? fun v => v.id == wPropC1.target_version_id) = some wTgt) ∧
    wTgt.id ≠ wSrc.id ∧
    (∃ t, rejectChangeProposal wStateC1 wPropC1.id = .ok t ∧
      (t.versions.find? fun v => v.id == wPropC1.source_version_id) = none ∧
      (t.versions.find? fun v => v.id == wPropC1.target_version_id) = some wTgt ∧
      (t.proposals.find? fun q => q.id == wPropC1.id) =
        some { wPropC1 with status := .rejected } ∧
      t.change_set_edges = wStateC1.change_set_edges ∧
      ∀ fileId, fileVisible wStateC1 wTgt fileId = false →
        fileVisible t wTgt fileId = false) :=
  ⟨by decide, rfl, by decide, by decide, by decide,
   claim_C1_rejectChangeProposal_frame wStateC1 wPropC1 wSrc wTgt
     (by decide) rfl (by decide) (by decide) (by decide)⟩

/-! ## Lemmas: the ancestors traversal (C7) -/

theorem mem_parentsOf {edges : List ChangeSetEdge} {x pid : Nat}
    (h : pid ∈ parentsOf edges x) : ChangeSetEdge.mk pid x ∈ edges := by
  unfold parentsOf at h
  rw [List.mem_map] at h
  obtain ⟨e, he, hpe⟩ := h
  have hmem := (List.mem_filter.mp he).1
  have hchild : e.child_id = x := by simpa using (List.mem_filter.mp he).2
  have heq : e = ChangeSetEdge.mk pid x := by
    cases e
    simp_all
  rw [← heq]
  exact hmem

theorem ancestorsAux_sound (edges : List ChangeSetEdge) (root : Nat) :
    ∀ (fuel : Nat) (frontier visited : List Nat),
    (∀ x ∈ frontier, ReachesParent edges x root) →
    (∀ v ∈ visited, ReachesParent edges v root) →
    ∀ a ∈ ancestorsAux edges fuel frontier visited, ReachesParent edges a root := by
  intro fuel
  induction fuel with
  | zero => intro frontier visited hf hv a ha; exact hv a ha
  | succ fuel ih =>
    intro frontier visited hf hv a ha
    cases frontier with
    | nil => exact hv a ha
    | cons x fr =>
      simp only [ancestorsAux] at ha
      split at ha
      · exact ih fr visited (fun y hy => hf y (List.mem_cons_of_mem _ hy)) hv a ha
      · refine ih (fr ++ parentsOf edges x) (visited ++ [x]) ?_ ?_ a ha
        · intro y hy
          rcases List.mem_append.mp hy with h | h
          · exact hf y (List.mem_cons_of_mem _ h)
          · exact ReachesParent.trans (ReachesParent.step (mem_parentsOf h))
              (hf x (List.mem_cons_self _ _))
        · intro v hv2
          rcases List.mem_append.mp hv2 with h | h
          · exact hv v h
          · rw [List.mem_singleton] at h
            rw [h]
            exact hf x (List.mem_cons_self _ _)

theorem ancestorsAux_nodup (edges : List ChangeSetEdge) :
    ∀ (fuel : Nat) (frontier visited : List Nat),
    visited.Nodup → (ancestorsAux edges fuel frontier visited).Nodup := by
  intro fuel
  induction fuel with
  | zero => intro frontier visited h; exact h
  | succ fuel ih =>
    intro frontier visited h
    cases frontier with
    | nil => exact h
    | cons x fr =>
      simp only [ancestorsAux]
      split
      · exact ih fr visited h
      · rename_i hnc
        refine ih (fr ++ parentsOf edges x) (visited ++ [x]) ?_
        have hx : x ∉ visited := by simpa using hnc
        refine List.Nodup.append h (List.nodup_singleton x) ?_
        intro a ha hax
        rw [List.mem_singleton] at hax
        subst hax
        exact hx ha

theorem reachesParent_lt {edges : List ChangeSetEdge}
    (hmono : ∀ e ∈ edges, e.child_id < e.parent_id) :
    ∀ {a b : Nat}, ReachesParent edges a b → b < a := by
  intro a b h
  induction h with
  | step hmem => exact hmono _ hmem
  | trans h1 h2 ih1 ih2 => omega

theorem reachesParent_irrefl_of_mono (edges : List ChangeSetEdge)
    (hmono : ∀ e ∈ edges, e.child_id < e.parent_id) (c : Nat) :
    ¬ ReachesParent edges c c :=
  fun h => absurd (reachesParent_lt hmono h) (lt_irrefl c)

/-- **C7** On an acyclic history, `ancestors S` never yields `S` itself,
yields each change set at most once (also across diamond histories), and
yields only proper ancestors of `S`. -/
theorem claim_C7_ancestors_no_self_no_dup (edges : List ChangeSetEdge) (csId : Nat)
    (hacyc : ¬ ReachesParent edges csId csId) :
    csId ∉ ancestors edges csId ∧ (ancestors edges csId).Nodup ∧
    ∀ a ∈ ancestors edges csId, ReachesParent edges a csId := by
  have hsound : ∀ a ∈ ancestors edges csId, ReachesParent edges a csId := by
    apply ancestorsAux_sound edges csId _ (parentsOf edges csId) []
    · intro x hx
      exact ReachesParent.step (mem_parentsOf hx)
    · intro v hv
      cases hv
  refine ⟨?_, ?_, hsound⟩
  · intro hmem
    exact hacyc (hsound csId hmem)
  · exact ancestorsAux_nodup edges _ _ [] List.nodup_nil

theorem claim_C7_ancestors_no_self_no_dup_witness :
    (¬ ReachesParent wEdges 0 0) ∧ 0 ∉ ancestors wEdges 0 ∧
    (ancestors wEdges 0).Nodup ∧ ancestors wEdges 0 = [1, 2, 3] :=
  ⟨reachesParent_irrefl_of_mono wEdges (by decide) 0,
   (claim_C7_ancestors_no_self_no_dup wEdges 0
     (reachesParent_irrefl_of_mono wEdges (by decide) 0)).1,
   (claim_C7_ancestors_no_self_no_dup wEdges 0
     (reachesParent_irrefl_of_mono wEdges (by decide) 0)).2.1,
   by decide⟩

/-! ## Lemmas: file queue settlement (C6) -/

theorem fileQueueSettledAux_shift : ∀ (qs : List (List FileQueueEntry)) (i : Nat),
    fileQueueSettledAux i qs = (fileQueueSettledAux 0 qs).map fun n => n + i := by
  intro qs
  induction qs with
  | nil => intro i; rfl
  | cons q qs ih =>
    intro i
    simp only [fileQueueSettledAux]
    split
    · simp
    · rw [ih (i + 1), ih 1, Option.map_map]
      congr 1
      funext n
      simp only [Function.comp_apply]
      omega

theorem fileQueueSettled_cons (q : List FileQueueEntry)
    (qs : List (List FileQueueEntry)) :
    fileQueueSettled (q :: qs) =
      if queueSettled q then some 0 else (fileQueueSettled qs).map fun n => n + 1 := by
  unfold fileQueueSettled
  simp only [fileQueueSettledAux]
  split
  · rfl
  · exact fileQueueSettledAux_shift qs 1

/-- **C6** `fileQueueSettled` resolves immediately (poll 0) on an already
empty queue, and more generally on a queue whose only entries are in state
`error`; and whenever it resolves at poll `i`, the snapshot at `i` has no
`pending`/`processing` entries while every earlier snapshot still had some —
it resolves exactly when the in-flight work is cleared and never waits on
`error` entries. -/
theorem claim_C6_fileQueueSettled_temporal :
    (∀ qs, fileQueueSettled ([] :: qs) = some 0) ∧
    (∀ entries qs, (∀ e ∈ entries, e.status = .error) →
      fileQueueSettled (entries :: qs) = some 0) ∧
    (∀ trace i, fileQueueSettled trace = some i →
      ∃ q, trace.get? i = some q ∧ queueSettled q = true ∧
        ∀ j, j < i → ∃ q', trace.get? j = some q' ∧ queueSettled q' = false) := by
  refine ⟨?_, ?_, ?_⟩
  · intro qs
    rfl
  · intro entries qs h
    rw [fileQueueSettled_cons]
    have hs : queueSettled entries = true := by
      unfold queueSettled
      rw [List.all_eq_true]
      intro e he
      simp [blocksSettlement, h e he]
    rw [if_pos hs]
  · intro trace
    induction trace with
    | nil => intro i h; cases h
    | cons q qs ih =>
      intro i h
      rw [fileQueueSettled_cons] at h
      by_cases hs : queueSettled q = true
      · rw [if_pos hs] at h
        injection h with h
        subst h
        exact ⟨q, rfl, hs, fun j hj => absurd hj (Nat.not_lt_zero j)⟩
      · rw [if_neg hs] at h
        cases hq : fileQueueSettled qs with
        | none => rw [hq] at h; cases h
        | some iPrev =>
          rw [hq] at h
          simp only [Option.map_some'] at h
          injection h with h
          subst h
          obtain ⟨qB, hget, hsets, hblocked⟩ := ih iPrev hq
          refine ⟨qB, by simpa using hget, hsets, ?_⟩
          intro j hj
          cases j with
          | zero => exact ⟨q, rfl, by simpa using hs⟩
          | succ jPrev =>
            obtain ⟨qO, hg, hqO⟩ := hblocked jPrev (Nat.lt_of_succ_lt_succ hj)
            exact ⟨qO, by simpa using hg, hqO⟩

theorem claim_C6_fileQueueSettled_temporal_witness :
    fileQueueSettled ([] :: [[⟨0, .pending⟩]]) = some 0 ∧
    fileQueueSettled [[⟨0, .error⟩]] = some 0 ∧
    (∃ q, [[⟨0, .pending⟩], [⟨1, .processing⟩], ([] : List FileQueueEntry)].get? 2 =
        some q ∧ queueSettled q = true ∧
      ∀ j, j < 2 →
        ∃ q', [[⟨0, .pending⟩], [⟨1, .processing⟩], ([] : List FileQueueEntry)].get? j =
          some q' ∧ queueSettled q' = false) :=
  ⟨claim_C6_fileQueueSettled_temporal.1 [[⟨0, .pending⟩]],
   claim_C6_fileQueueSettled_temporal.2.1 [⟨0, .error⟩] [] (by decide),
   claim_C6_fileQueueSettled_temporal.2.2
     [[⟨0, .pending⟩], [⟨1, .processing⟩], []] 2 (by decide)⟩
